import Mathlib

/-!
Shallow embedding of the combinatory-chemistry reaction-graph engine
(reaction_graph.py) and the pool feeder (pool_feeder.py) of the
CommAI-env repository, together with theorems settling the specified
properties of these components.

Python dictionaries are modelled as insertion-ordered association lists,
networkx digraphs as a node list plus an edge list (both carrying
attribute dictionaries), Python sets as Finsets, and the two while-loops
of the RAF solver and the closure computation by structurally recursive
functions with provably sufficient fuel.
-/

namespace CommAI

/-- Python attribute values stored by the reaction-graph code in
networkx node/edge attribute dictionaries: strings, integers, booleans
and the Python constant None. -/
inductive Val where
  | str (s : String)
  | int (n : Int)
  | bool (b : Bool)
  | none
deriving DecidableEq

/-- The integer carried by a value; reaction-graph code only applies
this to values it stored as integers. -/
def Val.toInt : Val → Int
  | Val.int n => n
  | _ => 0

/-- A Python/networkx attribute dictionary: insertion-ordered key/value
pairs. -/
abbrev AttrDict := List (String × Val)

/-- Python dict assignment: replace the value of the key in place when
the key is present, append the pair otherwise. -/
def setAttr (d : AttrDict) (k : String) (v : Val) : AttrDict :=
  if d.any (fun kv => decide (kv.1 = k)) then
    d.map (fun kv => if kv.1 = k then (kv.1, v) else kv)
  else d ++ [(k, v)]

/-- Python dict.update: assign every pair of the second dictionary into
the first, in order. -/
def updAttrs (d attrs : AttrDict) : AttrDict :=
  attrs.foldl (fun d kv => setAttr d kv.1 kv.2) d

/-- Python dict lookup returning the value of the first (hence, for
dictionaries, unique) entry with the given key. -/
def getAttr? (d : AttrDict) (k : String) : Option Val :=
  (d.find? (fun kv => decide (kv.1 = k))).map (fun kv => kv.2)

/-- The Reaction model (external collaborator of reaction_graph.py): a
type tag, ordered reactive and product lists, and a designated
substrate. -/
structure Reaction (α : Type) where
  type : String
  reactives : List α
  products : List α
  substrate : α
deriving DecidableEq

/-- The designated substrate of a reaction (Reaction.get_substrate in
the source's Reaction collaborator). -/
def Reaction.get_substrate {α : Type} (r : Reaction α) : α :=
  r.substrate

/-- A graph node key: either an expression or a reaction, used directly
as a networkx node. Expression and Reaction values are distinct by
construction, matching the repository's use of disjoint value types. -/
inductive Node (α : Type) where
  | expr (e : α)
  | rxn (r : Reaction α)
deriving DecidableEq

/-- A networkx DiGraph: insertion-ordered node entries and directed
edge entries, each with an attribute dictionary. -/
structure NXDiGraph (α : Type) where
  nodes : List (Node α × AttrDict)
  edges : List ((Node α × Node α) × AttrDict)
deriving DecidableEq

variable {α : Type} [DecidableEq α]

/-- The empty digraph (ReactionGraph.reset). -/
def NXDiGraph.empty : NXDiGraph α := { nodes := [], edges := [] }

/-- Membership of a node key in the graph. -/
def NXDiGraph.hasNode (g : NXDiGraph α) (n : Node α) : Bool :=
  g.nodes.any (fun nd => decide (nd.1 = n))

/-- Membership of a directed edge in the graph. -/
def NXDiGraph.hasEdge (g : NXDiGraph α) (u v : Node α) : Bool :=
  g.edges.any (fun ed => decide (ed.1 = (u, v)))

/-- networkx add_node: create the node with the given attributes, or
update the existing node's attribute dictionary in place. -/
def NXDiGraph.add_node (g : NXDiGraph α) (n : Node α) (attrs : AttrDict) :
    NXDiGraph α :=
  if g.hasNode n then
    let upd := fun (nd : Node α × AttrDict) =>
      if nd.1 = n then (nd.1, updAttrs nd.2 attrs) else nd
    { g with nodes := g.nodes.map upd }
  else { g with nodes := g.nodes ++ [(n, attrs)] }

/-- networkx add_edge: silently create missing endpoints with empty
attribute dictionaries, then create the edge or update its attribute
dictionary in place. -/
def NXDiGraph.add_edge (g : NXDiGraph α) (u v : Node α) (attrs : AttrDict) :
    NXDiGraph α :=
  let g1 := if g.hasNode u then g else g.add_node u []
  let g2 := if g1.hasNode v then g1 else g1.add_node v []
  if g2.hasEdge u v then
    let upd := fun (ed : (Node α × Node α) × AttrDict) =>
      if ed.1 = (u, v) then (ed.1, updAttrs ed.2 attrs) else ed
    { g2 with edges := g2.edges.map upd }
  else { g2 with edges := g2.edges ++ [((u, v), attrs)] }

/-- networkx remove_nodes_from: drop the listed node keys and every
edge incident to one of them. -/
def NXDiGraph.remove_nodes_from (g : NXDiGraph α) (s : List (Node α)) :
    NXDiGraph α :=
  { nodes := g.nodes.filter (fun nd => decide (nd.1 ∉ s)),
    edges := g.edges.filter (fun ed => decide (ed.1.1 ∉ s ∧ ed.1.2 ∉ s)) }

/-- The node keys of the graph, in insertion order. -/
def NXDiGraph.nodeKeys (g : NXDiGraph α) : List (Node α) :=
  g.nodes.map (fun nd => nd.1)

/-- The predecessors of a node: sources of edges into it, in edge
insertion order. -/
def NXDiGraph.predecessorsOf (g : NXDiGraph α) (n : Node α) : List (Node α) :=
  g.edges.filterMap (fun ed => if ed.1.2 = n then Option.some ed.1.1 else Option.none)

/-- ReactionGraph.get_node_attribute: on a missing node, networkx
raises KeyError, which the method turns into the default when one other
than None was supplied and re-raises otherwise; on a present node the
networkx NodeDataView lookup yields the stored attribute value, or the
view's built-in default None when the attribute key is absent. -/
def get_node_attribute (g : NXDiGraph α) (node : Node α) (attr : String)
    (default : Val) : Except Unit Val :=
  match g.nodes.find? (fun nd => decide (nd.1 = node)) with
  | Option.none => if default = Val.none then Except.error () else Except.ok default
  | Option.some nd => Except.ok ((getAttr? nd.2 attr).getD Val.none)

/-- ReactionGraph.get_occurrences: attribute lookup with default 0. -/
def get_occurrences (g : NXDiGraph α) (reaction : Reaction α) : Val :=
  match get_node_attribute g (Node.rxn reaction) "occurrences" (Val.int 0) with
  | Except.ok v => v
  | Except.error _ => Val.none

/-- The attribute dictionary written for a reaction node by
add_reaction, in keyword order. -/
def rxnAttrs (r : Reaction α) (occ : Int) : AttrDict :=
  [("reaction_type", Val.str r.type), ("occurrences", Val.int occ),
   ("node_type", Val.str "reaction")]

/-- The attribute dictionary written for an expression node by
add_reaction. -/
def exprAttrs : AttrDict := [("node_type", Val.str "expression")]

/-- The attribute dictionary written for an edge by add_reaction. -/
def subAttrs (b : Bool) : AttrDict := [("substrate", Val.bool b)]

/-- ReactionGraph.add_reaction: bump the occurrence counter on the
reaction node, then add every reactive with an edge into the reaction
(substrate flag set exactly on the designated substrate) and every
product with an edge out of the reaction. -/
def add_reaction (g : NXDiGraph α) (reaction_node : Reaction α) : NXDiGraph α :=
  let occurrences := (get_occurrences g reaction_node).toInt
  let g := g.add_node (Node.rxn reaction_node) (rxnAttrs reaction_node (occurrences + 1))
  let substrate := reaction_node.get_substrate
  let g := reaction_node.reactives.foldl (fun g r =>
      let g := g.add_node (Node.expr r) exprAttrs
      g.add_edge (Node.expr r) (Node.rxn reaction_node)
        (subAttrs (decide (r = substrate)))) g
  reaction_node.products.foldl (fun g p =>
      let g := g.add_node (Node.expr p) exprAttrs
      g.add_edge (Node.rxn reaction_node) (Node.expr p) (subAttrs false)) g

/-- A graph built from the empty graph by a sequence of add_reaction
calls, the only way reaction-graph nodes and edges are ever created. -/
def buildGraph (rs : List (Reaction α)) : NXDiGraph α :=
  rs.foldl add_reaction NXDiGraph.empty

/-- ReactionGraph.get_all_reducing_reactions: the reaction nodes whose
node_type attribute is "reaction" and reaction_type attribute is
"reduce", in node insertion order. -/
def get_all_reducing_reactions (g : NXDiGraph α) : List (Reaction α) :=
  g.nodes.filterMap (fun nd =>
    match nd.1 with
    | Node.rxn r =>
        if getAttr? nd.2 "node_type" = Option.some (Val.str "reaction") ∧
           getAttr? nd.2 "reaction_type" = Option.some (Val.str "reduce")
        then Option.some r else Option.none
    | Node.expr _ => Option.none)

/-- The loop condition of one reaction inside get_set_closure: some
product still missing while every reactive is already available. -/
def closCond (s : Finset α) (r : Reaction α) : Prop :=
  (∃ p ∈ r.products, p ∉ s) ∧ (∀ x ∈ r.reactives, x ∈ s)

instance (s : Finset α) (r : Reaction α) : Decidable (closCond s r) := by
  unfold closCond; infer_instance

/-- One full pass of the get_set_closure loop over the reactions,
threading the accumulated set and the s_updated flag. -/
def closurePass (l : List (Reaction α)) (s : Finset α) (upd : Bool) :
    Finset α × Bool :=
  match l with
  | [] => (s, upd)
  | r :: l =>
      if closCond s r then closurePass l (s ∪ r.products.toFinset) true
      else closurePass l s upd

/-- All products appearing in a reaction list, the bound on growth of
the closure set. -/
def allProducts (l : List (Reaction α)) : Finset α :=
  l.foldr (fun r acc => r.products.toFinset ∪ acc) ∅

/-- The while-loop of get_set_closure: repeat full passes while one of
them updated the set. The fuel argument is consumed only on updating
passes, and each updating pass strictly grows the set inside the fixed
bound, so the fuel supplied by get_set_closure never runs out. -/
def closureLoop (l : List (Reaction α)) : Nat → Finset α → Finset α
  | 0, s => s
  | n + 1, s =>
      let t := closurePass l s false
      if t.2 then closureLoop l n t.1 else t.1

/-- ReactionGraph.get_set_closure: saturate the seed set under the
given reactions. -/
def get_set_closure (s : Finset α) (reactions : List (Reaction α)) : Finset α :=
  closureLoop reactions ((allProducts reactions).card + 1) s

/-- One pruning step of the RAF solver: keep a reaction when all its
reactives are food-closure members or products of the candidate set,
and some product of it is consumed by the candidate set without being
food-closure material. -/
def rafStep (food_cl : Finset α) (raf : Finset (Reaction α)) :
    Finset (Reaction α) :=
  let all_reactives := raf.biUnion (fun r => r.reactives.toFinset)
  let all_products := raf.biUnion (fun r => r.products.toFinset)
  raf.filter (fun r =>
    (∀ x ∈ r.reactives, x ∈ food_cl ∨ x ∈ all_products) ∧
    (∃ x ∈ r.products, x ∈ all_reactives ∧ x ∉ food_cl))

/-- The while-loop of get_raf: iterate rafStep until it no longer
changes the candidate set. Fuel is consumed only on strictly shrinking
steps, so the fuel supplied by get_raf never runs out. -/
def rafLoop (food_cl : Finset α) : Nat → Finset (Reaction α) → Finset (Reaction α)
  | 0, raf => raf
  | n + 1, raf =>
      let new := rafStep food_cl raf
      if new = raf then raf else rafLoop food_cl n new

/-- ReactionGraph.get_raf: compute the food closure over the reducing
reactions and prune them to the greatest fixed point of rafStep. -/
def get_raf (g : NXDiGraph α) (food_set : Finset α) : Finset (Reaction α) :=
  let reductions := get_all_reducing_reactions g
  let food_cl := get_set_closure food_set reductions
  rafLoop food_cl (reductions.toFinset.card + 1) reductions.toFinset

/-- Whether a node key is a reaction whose reactive list equals its
product list (the comparison remove_selfloop performs on the key). -/
def selfloopKey : Node α → Bool
  | Node.rxn r => decide (r.reactives = r.products)
  | Node.expr _ => false

/-- ReactionGraph.remove_selfloop: remove every node whose node_type
attribute is "reaction" and whose reactive list equals its product
list, together with incident edges. On such nodes the source reads the
reactives and products fields, so the node key is a Reaction value. -/
def remove_selfloop (g : NXDiGraph α) : NXDiGraph α :=
  g.remove_nodes_from (g.nodes.filterMap (fun nd =>
    if getAttr? nd.2 "node_type" = Option.some (Val.str "reaction") ∧
       selfloopKey nd.1 = true
    then Option.some nd.1 else Option.none))

/-- Bounded reachability: a directed path from s to t of length at most
k edges exists. -/
def reachableIn (g : NXDiGraph α) (s : Node α) : Nat → Node α → Bool
  | 0, t => decide (s = t)
  | k + 1, t =>
      reachableIn g s k t ||
        g.edges.any (fun ed => decide (ed.1.2 = t) && reachableIn g s k ed.1.1)

/-- The shortest-path length (in edges) from s to t, the library
primitive behind nx.shortest_path: the least bound under which t is
reachable from s, searched up to the number of nodes of the graph. -/
def distOpt (g : NXDiGraph α) (s t : Node α) : Option Nat :=
  (List.range (g.nodes.length + 1)).find? (fun k => reachableIn g s k t)

/-- Python min over a list of naturals, None on the empty list. -/
def listMin : List Nat → Option Nat
  | [] => Option.none
  | x :: xs =>
      match listMin xs with
      | Option.none => Option.some x
      | Option.some m => Option.some (min x m)

/-- Python max over a list of naturals, None on the empty list. -/
def listMax : List Nat → Option Nat
  | [] => Option.none
  | x :: xs =>
      match listMax xs with
      | Option.none => Option.some x
      | Option.some m => Option.some (max x m)

/-- The per-node body of get_maximal_cycle_length: over the
predecessors of n that are reachable from n, the minimal node count of
a shortest path from n to the predecessor, which is the minimal length
of a cycle through n; None mirrors the ValueError of argmin on an empty
candidate list. -/
def node_min_cycle (g : NXDiGraph α) (n : Node α) : Option Nat :=
  listMin ((g.predecessorsOf n).filterMap
    (fun n0 => (distOpt g n n0).map (fun d => d + 1)))

/-- ReactionGraph.get_maximal_cycle_length: the maximum over all nodes
of the minimal cycle length through the node, halved upward; 0 when no
node lies on a cycle (the ValueError of argmax on an empty list). -/
def get_maximal_cycle_length (g : NXDiGraph α) : Nat :=
  match listMax ((g.nodeKeys).filterMap (node_min_cycle g)) with
  | Option.none => 0
  | Option.some L => (L + 1) / 2

/-- The PoolFeeder state (pool_feeder.py): the food list and the
feeding period. -/
structure PoolFeeder (α : Type) where
  food : List α
  period : Nat

/-- Python list.remove: delete the first occurrence, or raise
ValueError when the element is absent. -/
def list_remove (pool : List α) (x : α) : Except Unit (List α) :=
  if x ∈ pool then Except.ok (pool.erase x) else Except.error ()

/-- The per-molecule body of PoolFeeder.on_step_computed: remove each
atom of the molecule from the pool, then append the molecule. -/
def feed_one (atoms : α → List α) (pool : List α) (f : α) :
    Except Unit (List α) := do
  let pool ← (atoms f).foldlM list_remove pool
  Except.ok (pool ++ [f])

/-- PoolFeeder.on_step_computed: on a positive tick count that is a
multiple of the period, feed every food molecule into the pool;
otherwise leave the pool untouched. -/
def on_step_computed (pf : PoolFeeder α) (atoms : α → List α)
    (pool : List α) (ticks : Nat) : Except Unit (List α) :=
  if ticks > 0 ∧ ticks % pf.period = 0 then
    pf.food.foldlM (feed_one atoms) pool
  else Except.ok pool

deriving instance DecidableEq for Except

/-! General helper lemmas about folds. -/

theorem foldl_inv {β : Type _} {γ : Type _} (I : β → Prop) (f : β → γ → β) :
    ∀ (l : List γ) (init : β), I init →
      (∀ b x, x ∈ l → I b → I (f b x)) → I (l.foldl f init) := by
  intro l
  induction l with
  | nil => intro init h _; exact h
  | cons x xs ih =>
      intro init h hstep
      exact ih (f init x) (hstep init x (List.mem_cons_self x xs) h)
        (fun b y hy => hstep b y (List.mem_cons_of_mem x hy))

theorem foldl_fixed {β : Type _} {γ : Type _} (f : β → γ → β) (s : β) :
    ∀ (l : List γ), (∀ x ∈ l, f s x = s) → l.foldl f s = s := by
  intro l
  induction l with
  | nil => intro _; rfl
  | cons x xs ih =>
      intro h
      have hx : f s x = s := h x (List.mem_cons_self x xs)
      simp only [List.foldl_cons, hx]
      exact ih (fun y hy => h y (List.mem_cons_of_mem x hy))

/-! Lemmas about the RAF fixed-point loop. -/

theorem rafStep_subset (fc : Finset α) (raf : Finset (Reaction α)) :
    rafStep fc raf ⊆ raf :=
  Finset.filter_subset _ _

theorem rafLoop_fixpoint (fc : Finset α) :
    ∀ (n : Nat) (raf : Finset (Reaction α)), raf.card < n →
      rafStep fc (rafLoop fc n raf) = rafLoop fc n raf := by
  intro n
  induction n with
  | zero => intro raf h; exact absurd h (Nat.not_lt_zero _)
  | succ n ih =>
      intro raf h
      show rafStep fc (rafLoop fc (n + 1) raf) = rafLoop fc (n + 1) raf
      rw [rafLoop]
      by_cases hfix : rafStep fc raf = raf
      · simp only [hfix, if_pos rfl]
        exact hfix
      · simp only [if_neg hfix]
        apply ih
        have hss : rafStep fc raf ⊂ raf :=
          lt_of_le_of_ne (rafStep_subset fc raf) hfix
        have := Finset.card_lt_card hss
        omega

theorem get_raf_fixpoint (g : NXDiGraph α) (food : Finset α) :
    rafStep (get_set_closure food (get_all_reducing_reactions g))
        (get_raf g food) = get_raf g food := by
  unfold get_raf
  exact rafLoop_fixpoint _ _ _ (Nat.lt_succ_self _)

theorem mem_get_raf_step (g : NXDiGraph α) (food : Finset α) (r : Reaction α)
    (hr : r ∈ get_raf g food) :
    (∀ x ∈ r.reactives,
        x ∈ get_set_closure food (get_all_reducing_reactions g) ∨
          x ∈ (get_raf g food).biUnion (fun r2 => r2.products.toFinset)) ∧
      (∃ x ∈ r.products,
        x ∈ (get_raf g food).biUnion (fun r2 => r2.reactives.toFinset) ∧
          x ∉ get_set_closure food (get_all_reducing_reactions g)) := by
  have h := get_raf_fixpoint g food
  rw [← h] at hr
  unfold rafStep at hr
  exact (Finset.mem_filter.mp hr).2

/-- C1: every reaction in the returned RAF set has each reactive either
in the food closure over the reducing reactions or produced by some
member of the returned set. -/
theorem get_raf_survives_food (g : NXDiGraph α) (food : Finset α)
    (r : Reaction α) (x : α) (hr : r ∈ get_raf g food) (hx : x ∈ r.reactives) :
    x ∈ get_set_closure food (get_all_reducing_reactions g) ∨
      ∃ r2 ∈ get_raf g food, x ∈ r2.products := by
  rcases (mem_get_raf_step g food r hr).1 x hx with h | h
  · exact Or.inl h
  · right
    rcases Finset.mem_biUnion.mp h with ⟨r2, hr2, hx2⟩
    exact ⟨r2, hr2, List.mem_toFinset.mp hx2⟩

def r1C1 : Reaction Nat := ⟨"reduce", [10], [11], 10⟩

def r2C1 : Reaction Nat := ⟨"reduce", [11], [10], 11⟩

def gC1 : NXDiGraph Nat := buildGraph [r1C1, r2C1]

/-- C1 witness: in the two-reaction loop 10 to 11 to 10 with empty food
set, the reactive 10 of the surviving reaction r1C1 is produced inside
the returned set. -/
theorem get_raf_survives_food_witness :
    10 ∈ get_set_closure (∅ : Finset Nat) (get_all_reducing_reactions gC1) ∨
      ∃ r2 ∈ get_raf gC1 ∅, 10 ∈ r2.products :=
  get_raf_survives_food gC1 ∅ r1C1 10 (by decide) (by decide)

/-- C8: a reaction with an empty product list is never a member of the
returned RAF set, because the nontrivial-product clause is vacuously
false over zero products; the solver is a total function, so it
completes on reactions with zero reactives or zero products. -/
theorem get_raf_no_empty_products (g : NXDiGraph α) (food : Finset α)
    (r : Reaction α) (h : r.products = []) : r ∉ get_raf g food := by
  intro hr
  rcases (mem_get_raf_step g food r hr).2 with ⟨x, hx, _⟩
  rw [h] at hx
  exact absurd hx (List.not_mem_nil x)

def r1C8 : Reaction Nat := ⟨"reduce", [10], [11], 10⟩

def r2C8 : Reaction Nat := ⟨"reduce", [11], [10], 11⟩

def rEmptyC8 : Reaction Nat := ⟨"reduce", [10, 11], [], 10⟩

def rNoReacC8 : Reaction Nat := ⟨"reduce", [], [12], 13⟩

def gC8 : NXDiGraph Nat := buildGraph [r1C8, r2C8, rEmptyC8, rNoReacC8]

/-- C8 witness: on a graph that also contains a zero-product reaction
and a zero-reactive reaction, the solver evaluates without failure and
the zero-product reaction is excluded from the result. -/
theorem get_raf_no_empty_products_witness :
    rEmptyC8 ∉ get_raf gC8 ∅ :=
  get_raf_no_empty_products gC8 ∅ rEmptyC8 rfl

/-! C6: behaviour of get_node_attribute. -/

def rC6 : Reaction Nat := ⟨"reduce", [1], [2], 1⟩

def gC6 : NXDiGraph Nat := buildGraph [rC6]

/-- C6 counterexample: on a node that is present in the graph while the
queried attribute is absent, get_node_attribute neither raises (without
a default) nor returns the supplied default (with one): both calls
return the Python constant None, contradicting the claimed behaviour
for the absent-attribute case. -/
theorem get_node_attribute_claim_false :
    get_node_attribute gC6 (Node.rxn rC6) "flavor" (Val.int 42) =
        Except.ok Val.none ∧
      Val.none ≠ Val.int 42 ∧
      get_node_attribute gC6 (Node.rxn rC6) "flavor" Val.none =
        Except.ok Val.none := by
  refine ⟨by decide, by decide, by decide⟩

/-- C6 amended: get_node_attribute raises a not-found error exactly
when the node is absent and no default is supplied; an absent node with
a default yields the default; a present node yields the stored
attribute value when the attribute exists and the Python constant None
when it does not, regardless of any default. -/
theorem get_node_attribute_amended (g : NXDiGraph α) (node : Node α)
    (a : String) (dflt : Val) :
    (g.hasNode node = false → dflt = Val.none →
        get_node_attribute g node a dflt = Except.error ()) ∧
      (g.hasNode node = false → dflt ≠ Val.none →
        get_node_attribute g node a dflt = Except.ok dflt) ∧
      (∀ nd, g.nodes.find? (fun nd => decide (nd.1 = node)) = Option.some nd →
        (∀ v, getAttr? nd.2 a = Option.some v →
            get_node_attribute g node a dflt = Except.ok v) ∧
          (getAttr? nd.2 a = Option.none →
            get_node_attribute g node a dflt = Except.ok Val.none)) := by
  have habsent : g.hasNode node = false →
      g.nodes.find? (fun nd => decide (nd.1 = node)) = Option.none := by
    intro h
    rw [List.find?_eq_none]
    intro x hx
    simp only [decide_eq_true_eq]
    intro hxe
    have : g.hasNode node = true := by
      unfold NXDiGraph.hasNode
      rw [List.any_eq_true]
      exact ⟨x, hx, by simp [hxe]⟩
    rw [this] at h
    exact Bool.noConfusion h
  refine ⟨?_, ?_, ?_⟩
  · intro h hd
    unfold get_node_attribute
    rw [habsent h, hd]
    simp
  · intro h hd
    unfold get_node_attribute
    rw [habsent h]
    simp [hd]
  · intro nd hnd
    constructor
    · intro v hv
      unfold get_node_attribute
      rw [hnd]
      show Except.ok ((getAttr? nd.2 a).getD Val.none) = Except.ok v
      rw [hv]
      rfl
    · intro hv
      unfold get_node_attribute
      rw [hnd]
      show Except.ok ((getAttr? nd.2 a).getD Val.none) = Except.ok Val.none
      rw [hv]
      rfl

def rC6w : Reaction Nat := ⟨"reduce", [1], [2], 1⟩

def gC6w : NXDiGraph Nat := buildGraph [rC6w]

/-- C6 amended witness: an absent node with a non-None default yields
the default. -/
theorem get_node_attribute_amended_witness :
    get_node_attribute gC6w (Node.expr 99) "node_type" (Val.int 7) =
      Except.ok (Val.int 7) :=
  (get_node_attribute_amended gC6w (Node.expr 99) "node_type" (Val.int 7)).2.1
    (by decide) (by decide)

/-! C10: the pool feeder. -/

/-- C10: on a tick count that is zero or not a multiple of the period,
on_step_computed leaves the pool unchanged; on a positive multiple it
feeds every food molecule, removing the molecule's atoms from the pool
and appending the molecule. -/
theorem on_step_computed_spec (food : List α) (period : Nat)
    (atoms : α → List α) (pool : List α) (ticks : Nat) (hperiod : 1 ≤ period) :
    (ticks = 0 ∨ ¬ period ∣ ticks →
        on_step_computed ⟨food, period⟩ atoms pool ticks = Except.ok pool) ∧
      (0 < ticks → period ∣ ticks →
        on_step_computed ⟨food, period⟩ atoms pool ticks =
          food.foldlM (feed_one atoms) pool) := by
  constructor
  · intro h
    unfold on_step_computed
    rcases h with h | h
    · subst h; simp
    · rw [if_neg]
      intro hcontra
      exact h (Nat.dvd_iff_mod_eq_zero.mpr hcontra.2)
  · intro hpos hdvd
    unfold on_step_computed
    rw [if_pos ⟨hpos, Nat.dvd_iff_mod_eq_zero.mp hdvd⟩]

/-- C10 witness: with food [6] (atoms 2 and 3), period 3 and tick 6,
the pool [2, 3, 9] becomes [9, 6]; at tick 5 it is unchanged. -/
theorem on_step_computed_spec_witness :
    on_step_computed ⟨[6], 3⟩ (fun _ => [2, 3]) [2, 3, 9] 6 =
        List.foldlM (feed_one (fun _ => [2, 3])) [2, 3, 9] [6] ∧
      on_step_computed ⟨[6], 3⟩ (fun _ => [2, 3]) [2, 3, 9] 5 =
        Except.ok [2, 3, 9] :=
  ⟨(on_step_computed_spec [6] 3 (fun _ => [2, 3]) [2, 3, 9] 6 (by decide)).2
      (by decide) (by decide),
    (on_step_computed_spec [6] 3 (fun _ => [2, 3]) [2, 3, 9] 5 (by decide)).1
      (Or.inr (by decide))⟩

/-! Lemmas about the closure computation. -/

theorem closurePass_superset (l : List (Reaction α)) :
    ∀ (s : Finset α) (upd : Bool), s ⊆ (closurePass l s upd).1 := by
  induction l with
  | nil => intro s upd; exact Finset.Subset.refl s
  | cons r l ih =>
      intro s upd
      rw [closurePass]
      by_cases h : closCond s r
      · rw [if_pos h]
        exact Finset.Subset.trans Finset.subset_union_left (ih _ _)
      · rw [if_neg h]
        exact ih _ _

theorem closurePass_bound (l : List (Reaction α)) :
    ∀ (s : Finset α) (upd : Bool), (closurePass l s upd).1 ⊆ s ∪ allProducts l := by
  induction l with
  | nil => intro s upd; exact Finset.subset_union_left
  | cons r l ih =>
      intro s upd
      rw [closurePass]
      have hstep : allProducts (r :: l) = r.products.toFinset ∪ allProducts l := rfl
      by_cases h : closCond s r
      · rw [if_pos h]
        refine Finset.Subset.trans (ih _ _) ?_
        rw [hstep]
        intro x hx
        rcases Finset.mem_union.mp hx with hx | hx
        · rcases Finset.mem_union.mp hx with hx | hx
          · exact Finset.mem_union_left _ hx
          · exact Finset.mem_union_right _ (Finset.mem_union_left _ hx)
        · exact Finset.mem_union_right _ (Finset.mem_union_right _ hx)
      · rw [if_neg h]
        refine Finset.Subset.trans (ih _ _) ?_
        rw [hstep]
        intro x hx
        rcases Finset.mem_union.mp hx with hx | hx
        · exact Finset.mem_union_left _ hx
        · exact Finset.mem_union_right _ (Finset.mem_union_right _ hx)

theorem closurePass_true_of_true (l : List (Reaction α)) :
    ∀ (s : Finset α), (closurePass l s true).2 = true := by
  induction l with
  | nil => intro s; rfl
  | cons r l ih =>
      intro s
      rw [closurePass]
      by_cases h : closCond s r
      · rw [if_pos h]; exact ih _
      · rw [if_neg h]; exact ih _

theorem closurePass_no_update (l : List (Reaction α)) :
    ∀ (s : Finset α), (closurePass l s false).2 = false →
      (closurePass l s false).1 = s ∧ ∀ r ∈ l, ¬ closCond s r := by
  induction l with
  | nil =>
      intro s _
      exact ⟨rfl, fun r hr => absurd hr (List.not_mem_nil r)⟩
  | cons r l ih =>
      intro s hfalse
      rw [closurePass] at hfalse ⊢
      by_cases h : closCond s r
      · rw [if_pos h] at hfalse
        rw [closurePass_true_of_true] at hfalse
        exact Bool.noConfusion hfalse
      · rw [if_neg h] at hfalse ⊢
        rcases ih s hfalse with ⟨h1, h2⟩
        refine ⟨h1, fun r' hr' => ?_⟩
        rcases List.mem_cons.mp hr' with he | hm
        · subst he; exact h
        · exact h2 r' hm

theorem closurePass_strict_growth (l : List (Reaction α)) :
    ∀ (s : Finset α), (closurePass l s false).2 = true →
      ∃ x, x ∈ (closurePass l s false).1 ∧ x ∉ s := by
  induction l with
  | nil => intro s h; exact Bool.noConfusion h
  | cons r l ih =>
      intro s htrue
      rw [closurePass] at htrue ⊢
      by_cases h : closCond s r
      · rw [if_pos h] at htrue ⊢
        rcases h.1 with ⟨p, hp, hps⟩
        refine ⟨p, ?_, hps⟩
        apply closurePass_superset
        exact Finset.mem_union_right _ (List.mem_toFinset.mpr hp)
      · rw [if_neg h] at htrue ⊢
        exact ih s htrue

theorem closurePass_in_closed (l : List (Reaction α)) (T : Finset α)
    (hT : ∀ r ∈ l, (∀ x ∈ r.reactives, x ∈ T) → ∀ p ∈ r.products, p ∈ T) :
    ∀ (s : Finset α) (upd : Bool), s ⊆ T → (closurePass l s upd).1 ⊆ T := by
  induction l with
  | nil => intro s upd hs; exact hs
  | cons r l ih =>
      intro s upd hs
      have hT' : ∀ r' ∈ l, (∀ x ∈ r'.reactives, x ∈ T) → ∀ p ∈ r'.products, p ∈ T :=
        fun r' hr' => hT r' (List.mem_cons_of_mem r hr')
      rw [closurePass]
      by_cases h : closCond s r
      · rw [if_pos h]
        apply ih hT'
        intro x hx
        rcases Finset.mem_union.mp hx with hx | hx
        · exact hs hx
        · exact hT r (List.mem_cons_self r l) (fun y hy => hs (h.2 y hy)) x
            (List.mem_toFinset.mp hx)
      · rw [if_neg h]
        exact ih hT' s upd hs

theorem sdiff_card_lt {A s s2 : Finset α} (hsub : s ⊆ s2) (hbound : s2 ⊆ s ∪ A)
    (x : α) (hx2 : x ∈ s2) (hxs : x ∉ s) : (A \ s2).card < (A \ s).card := by
  apply Finset.card_lt_card
  constructor
  · intro y hy
    rcases Finset.mem_sdiff.mp hy with ⟨hyA, hys2⟩
    exact Finset.mem_sdiff.mpr ⟨hyA, fun hys => hys2 (hsub hys)⟩
  · intro hcontra
    have hxA : x ∈ A := by
      rcases Finset.mem_union.mp (hbound hx2) with h | h
      · exact absurd h hxs
      · exact h
    have : x ∈ A \ s2 := hcontra (Finset.mem_sdiff.mpr ⟨hxA, hxs⟩)
    exact (Finset.mem_sdiff.mp this).2 hx2

theorem closureLoop_superset (l : List (Reaction α)) :
    ∀ (n : Nat) (s : Finset α), s ⊆ closureLoop l n s := by
  intro n
  induction n with
  | zero => intro s; exact Finset.Subset.refl s
  | succ n ih =>
      intro s
      rw [closureLoop]
      by_cases h : (closurePass l s false).2 = true
      · simp only [h, if_pos rfl]
        exact Finset.Subset.trans (closurePass_superset l s false) (ih _)
      · rw [Bool.not_eq_true] at h
        simp only [h]
        show s ⊆ (closurePass l s false).1
        exact closurePass_superset l s false

theorem closureLoop_closed (l : List (Reaction α)) :
    ∀ (n : Nat) (s : Finset α), (allProducts l \ s).card < n →
      ∀ r ∈ l, ¬ closCond (closureLoop l n s) r := by
  intro n
  induction n with
  | zero => intro s h; exact absurd h (Nat.not_lt_zero _)
  | succ n ih =>
      intro s hcard
      rw [closureLoop]
      by_cases h : (closurePass l s false).2 = true
      · simp only [h, if_pos rfl]
        apply ih
        rcases closurePass_strict_growth l s h with ⟨x, hx2, hxs⟩
        have hlt := sdiff_card_lt (closurePass_superset l s false)
          (closurePass_bound l s false) x hx2 hxs
        omega
      · rw [Bool.not_eq_true] at h
        simp only [h]
        show ∀ r ∈ l, ¬ closCond (closurePass l s false).1 r
        rcases closurePass_no_update l s h with ⟨h1, h2⟩
        rw [h1]
        exact h2

theorem closureLoop_minimal (l : List (Reaction α)) (T : Finset α)
    (hT : ∀ r ∈ l, (∀ x ∈ r.reactives, x ∈ T) → ∀ p ∈ r.products, p ∈ T) :
    ∀ (n : Nat) (s : Finset α), s ⊆ T → closureLoop l n s ⊆ T := by
  intro n
  induction n with
  | zero => intro s hs; exact hs
  | succ n ih =>
      intro s hs
      rw [closureLoop]
      by_cases h : (closurePass l s false).2 = true
      · simp only [h, if_pos rfl]
        exact ih _ (closurePass_in_closed l T hT s false hs)
      · rw [Bool.not_eq_true] at h
        simp only [h]
        show (closurePass l s false).1 ⊆ T
        exact closurePass_in_closed l T hT s false hs

/-- C2: get_set_closure returns the smallest superset of the seed set
that is closed under the reactions: it contains the seed set; whenever
all reactives of a listed reaction are in the result, so are all its
products; and it is contained in every other set with those two
properties. -/
theorem get_set_closure_spec (s : Finset α) (reactions : List (Reaction α)) :
    s ⊆ get_set_closure s reactions ∧
      (∀ r ∈ reactions, (∀ x ∈ r.reactives, x ∈ get_set_closure s reactions) →
        ∀ p ∈ r.products, p ∈ get_set_closure s reactions) ∧
      ∀ T : Finset α, s ⊆ T →
        (∀ r ∈ reactions, (∀ x ∈ r.reactives, x ∈ T) → ∀ p ∈ r.products, p ∈ T) →
        get_set_closure s reactions ⊆ T := by
  refine ⟨closureLoop_superset reactions _ s, ?_, ?_⟩
  · intro r hr hreac p hp
    have hnc := closureLoop_closed reactions ((allProducts reactions).card + 1) s
      (by have := Finset.card_le_card (Finset.sdiff_subset
            (s := allProducts reactions) (t := s)); omega)
      r hr
    unfold closCond at hnc
    push_neg at hnc
    by_contra hpc
    rcases hnc ⟨p, hp, hpc⟩ with ⟨y, hy, hyn⟩
    exact hyn (hreac y hy)
  · intro T hsT hT
    exact closureLoop_minimal reactions T hT _ s hsT

def rC2 : Reaction Nat := ⟨"reduce", [1], [5], 1⟩

/-- C2 witness: the closure of the seed 1 under the reaction 1 to 5 is
contained in the closed superset containing 1 and 5, contains the seed,
and is closed. -/
theorem get_set_closure_spec_witness :
    ({1} : Finset Nat) ⊆ get_set_closure {1} [rC2] ∧
      get_set_closure ({1} : Finset Nat) [rC2] ⊆ {1, 5} :=
  ⟨(get_set_closure_spec {1} [rC2]).1,
    (get_set_closure_spec {1} [rC2]).2.2 {1, 5} (by decide) (by decide)⟩

/-! Lemmas relating Python min/max over lists to set minima/maxima. -/

theorem listMin_mem : ∀ (l : List Nat) (m : Nat), listMin l = Option.some m → m ∈ l := by
  intro l
  induction l with
  | nil => intro m h; exact Option.noConfusion h
  | cons x xs ih =>
      intro m h
      rw [listMin] at h
      cases hxs : listMin xs with
      | none => rw [hxs] at h; cases h; exact List.mem_cons_self x xs
      | some m' =>
          rw [hxs] at h
          cases h
          rcases min_choice x m' with hc | hc
          · rw [hc]; exact List.mem_cons_self x xs
          · rw [hc]; exact List.mem_cons_of_mem x (ih m' hxs)

theorem listMin_le : ∀ (l : List Nat) (m : Nat), listMin l = Option.some m →
    ∀ v ∈ l, m ≤ v := by
  intro l
  induction l with
  | nil => intro m h; exact Option.noConfusion h
  | cons x xs ih =>
      intro m h v hv
      rw [listMin] at h
      cases hxs : listMin xs with
      | none =>
          rw [hxs] at h
          cases h
          rcases List.mem_cons.mp hv with he | hm
          · rw [he]
          · cases xs with
            | nil => exact absurd hm (List.not_mem_nil v)
            | cons y ys =>
                rw [listMin] at hxs
                cases hys : listMin ys <;> rw [hys] at hxs <;> exact Option.noConfusion hxs
      | some m' =>
          rw [hxs] at h
          cases h
          rcases List.mem_cons.mp hv with he | hm
          · rw [he]; exact min_le_left x m'
          · exact le_trans (min_le_right x m') (ih m' hxs v hm)

theorem listMax_mem : ∀ (l : List Nat) (m : Nat), listMax l = Option.some m → m ∈ l := by
  intro l
  induction l with
  | nil => intro m h; exact Option.noConfusion h
  | cons x xs ih =>
      intro m h
      rw [listMax] at h
      cases hxs : listMax xs with
      | none => rw [hxs] at h; cases h; exact List.mem_cons_self x xs
      | some m' =>
          rw [hxs] at h
          cases h
          rcases max_choice x m' with hc | hc
          · rw [hc]; exact List.mem_cons_self x xs
          · rw [hc]; exact List.mem_cons_of_mem x (ih m' hxs)

theorem listMax_ge : ∀ (l : List Nat) (m : Nat), listMax l = Option.some m →
    ∀ v ∈ l, v ≤ m := by
  intro l
  induction l with
  | nil => intro m h; exact Option.noConfusion h
  | cons x xs ih =>
      intro m h v hv
      rw [listMax] at h
      cases hxs : listMax xs with
      | none =>
          rw [hxs] at h
          cases h
          rcases List.mem_cons.mp hv with he | hm
          · rw [he]
          · cases xs with
            | nil => exact absurd hm (List.not_mem_nil v)
            | cons y ys =>
                rw [listMax] at hxs
                cases hys : listMax ys <;> rw [hys] at hxs <;> exact Option.noConfusion hxs
      | some m' =>
          rw [hxs] at h
          cases h
          rcases List.mem_cons.mp hv with he | hm
          · rw [he]; exact le_max_left x m'
          · exact le_trans (ih m' hxs v hm) (le_max_right x m')

theorem listMin_none_iff : ∀ (l : List Nat), listMin l = Option.none ↔ l = [] := by
  intro l
  cases l with
  | nil => simp [listMin]
  | cons x xs =>
      simp only [listMin]
      cases hxs : listMin xs <;> simp

theorem listMax_none_iff : ∀ (l : List Nat), listMax l = Option.none ↔ l = [] := by
  intro l
  cases l with
  | nil => simp [listMax]
  | cons x xs =>
      simp only [listMax]
      cases hxs : listMax xs <;> simp

/-- The minimum of a finite set of naturals when the set is nonempty,
None otherwise: how the specification reads a minimum over an optional
collection of candidates. -/
def optMin (s : Finset Nat) : Option Nat :=
  if h : s.Nonempty then Option.some (s.min' h) else Option.none

/-- The maximum of a finite set of naturals when the set is nonempty,
None otherwise. -/
def optMax (s : Finset Nat) : Option Nat :=
  if h : s.Nonempty then Option.some (s.max' h) else Option.none

theorem listMin_eq_optMin (l : List Nat) : listMin l = optMin l.toFinset := by
  cases hl : listMin l with
  | none =>
      rw [listMin_none_iff] at hl
      subst hl
      simp [optMin]
  | some m =>
      have hm := listMin_mem l m hl
      have hne : l.toFinset.Nonempty := ⟨m, List.mem_toFinset.mpr hm⟩
      rw [optMin, dif_pos hne]
      congr 1
      apply le_antisymm
      · exact listMin_le l m hl _ (List.mem_toFinset.mp (l.toFinset.min'_mem hne))
      · exact l.toFinset.min'_le m (List.mem_toFinset.mpr hm)

theorem listMax_eq_optMax (l : List Nat) : listMax l = optMax l.toFinset := by
  cases hl : listMax l with
  | none =>
      rw [listMax_none_iff] at hl
      subst hl
      simp [optMax]
  | some m =>
      have hm := listMax_mem l m hl
      have hne : l.toFinset.Nonempty := ⟨m, List.mem_toFinset.mpr hm⟩
      rw [optMax, dif_pos hne]
      congr 1
      apply le_antisymm
      · exact l.toFinset.le_max' m (List.mem_toFinset.mpr hm)
      · exact listMax_ge l m hl _ (List.mem_toFinset.mp (l.toFinset.max'_mem hne))

theorem filterMap_toFinset_biUnion {β γ : Type _} [DecidableEq β] [DecidableEq γ]
    (f : β → Option γ) (l : List β) :
    (l.filterMap f).toFinset = l.toFinset.biUnion (fun b => (f b).toFinset) := by
  ext v
  simp only [List.mem_toFinset, List.mem_filterMap, Finset.mem_biUnion,
    Option.mem_toFinset, Option.mem_def]

/-! The specification-side reading of the cycle estimator, compared
against the source embedding. -/

/-- Stated from the specification: the set of cycle lengths through a
node, one candidate per predecessor that has a finite shortest path
from the node, each candidate being that path length plus the closing
edge. -/
def spec_cycle_lengths (g : NXDiGraph α) (n : Node α) : Finset Nat :=
  (g.predecessorsOf n).toFinset.biUnion
    (fun n0 => ((distOpt g n n0).map (fun d => d + 1)).toFinset)

/-- Stated from the specification: the minimal cycle length through a
node, None when the node lies on no cycle. -/
def spec_min_cycle (g : NXDiGraph α) (n : Node α) : Option Nat :=
  optMin (spec_cycle_lengths g n)

/-- Stated from the specification: the set of minimal cycle lengths of
all nodes lying on at least one cycle. -/
def spec_levels (g : NXDiGraph α) : Finset Nat :=
  (g.nodeKeys).toFinset.biUnion (fun n => (spec_min_cycle g n).toFinset)

theorem node_min_cycle_eq_spec (g : NXDiGraph α) (n : Node α) :
    node_min_cycle g n = spec_min_cycle g n := by
  unfold node_min_cycle spec_min_cycle spec_cycle_lengths
  rw [listMin_eq_optMin, filterMap_toFinset_biUnion]

/-- C5: get_maximal_cycle_length reports the floor of (L + 1) / 2 where
L is the maximum over all nodes on a cycle of the minimal cycle length
through the node, each minimal cycle length being the minimum over
predecessors reachable from the node of the shortest-path length to the
predecessor plus the closing edge; it reports 0 when no node lies on a
cycle. -/
theorem get_maximal_cycle_length_spec (g : NXDiGraph α) :
    get_maximal_cycle_length g =
      match optMax (spec_levels g) with
      | Option.none => 0
      | Option.some L => (L + 1) / 2 := by
  unfold get_maximal_cycle_length
  have h1 : listMax ((g.nodeKeys).filterMap (node_min_cycle g)) =
      optMax (spec_levels g) := by
    rw [listMax_eq_optMax, filterMap_toFinset_biUnion]
    unfold spec_levels
    congr 1
    apply Finset.biUnion_congr rfl
    intro n _
    rw [node_min_cycle_eq_spec]
  rw [h1]

def rC5a : Reaction Nat := ⟨"reduce", [10], [11], 10⟩

def rC5b : Reaction Nat := ⟨"reduce", [11], [10], 11⟩

def gC5 : NXDiGraph Nat := buildGraph [rC5a, rC5b]

/-- C5 witness: on the four-node loop expression 10, reaction,
expression 11, reaction, the minimal cycle length is 4 everywhere and
the reported level is 2. -/
theorem get_maximal_cycle_length_spec_witness :
    get_maximal_cycle_length gC5 =
        (match optMax (spec_levels gC5) with
        | Option.none => 0
        | Option.some L => (L + 1) / 2) ∧
      get_maximal_cycle_length gC5 = 2 :=
  ⟨get_maximal_cycle_length_spec gC5, by decide⟩

/-! Computation lemmas for the canonical attribute dictionaries. -/

theorem updAttrs_expr : updAttrs exprAttrs exprAttrs = exprAttrs := rfl

theorem updAttrs_rxn (r : Reaction α) (m j : Int) :
    updAttrs (rxnAttrs r m) (rxnAttrs r j) = rxnAttrs r j := rfl

theorem updAttrs_sub (b c : Bool) : updAttrs (subAttrs b) (subAttrs c) = subAttrs c := rfl

theorem setAttr_occ (r : Reaction α) (m j : Int) :
    setAttr (rxnAttrs r m) "occurrences" (Val.int j) = rxnAttrs r j := rfl

theorem getAttr?_rxn_node_type (r : Reaction α) (m : Int) :
    getAttr? (rxnAttrs r m) "node_type" = Option.some (Val.str "reaction") := rfl

theorem getAttr?_rxn_occ (r : Reaction α) (m : Int) :
    getAttr? (rxnAttrs r m) "occurrences" = Option.some (Val.int m) := rfl

theorem getAttr?_expr_node_type :
    getAttr? (exprAttrs : AttrDict) "node_type" = Option.some (Val.str "expression") := rfl

/-! Shape lemmas about the graph operations. -/

theorem add_node_nodes (g : NXDiGraph α) (n : Node α) (attrs : AttrDict) :
    (g.add_node n attrs).nodes =
      if g.hasNode n then
        g.nodes.map (fun nd => if nd.1 = n then (nd.1, updAttrs nd.2 attrs) else nd)
      else g.nodes ++ [(n, attrs)] := by
  unfold NXDiGraph.add_node
  by_cases hn : g.hasNode n <;> simp [hn]

theorem add_node_edges (g : NXDiGraph α) (n : Node α) (attrs : AttrDict) :
    (g.add_node n attrs).edges = g.edges := by
  unfold NXDiGraph.add_node
  by_cases hn : g.hasNode n <;> simp [hn]

theorem hasEdge_edges_congr (g g' : NXDiGraph α) (h : g.edges = g'.edges)
    (u v : Node α) : g.hasEdge u v = g'.hasEdge u v := by
  unfold NXDiGraph.hasEdge
  rw [h]

theorem add_edge_edges (g : NXDiGraph α) (u v : Node α) (attrs : AttrDict) :
    (g.add_edge u v attrs).edges =
      if g.hasEdge u v then
        g.edges.map (fun ed => if ed.1 = (u, v) then (ed.1, updAttrs ed.2 attrs) else ed)
      else g.edges ++ [((u, v), attrs)] := by
  simp only [NXDiGraph.add_edge]
  have key : ∀ g2 : NXDiGraph α, g2.edges = g.edges →
      (if g2.hasEdge u v then
        { g2 with edges := (g2.edges.map (fun ed : (Node α × Node α) × AttrDict =>
            if ed.1 = (u, v) then (ed.1, updAttrs ed.2 attrs) else ed)) }
      else { g2 with edges := g2.edges ++ [((u, v), attrs)] }).edges =
      if g.hasEdge u v then
        g.edges.map (fun ed => if ed.1 = (u, v) then (ed.1, updAttrs ed.2 attrs) else ed)
      else g.edges ++ [((u, v), attrs)] := by
    intro g2 h2
    rw [hasEdge_edges_congr g2 g h2 u v]
    by_cases he : g.hasEdge u v <;> simp [he, h2]
  apply key
  by_cases hu : g.hasNode u
  · simp only [hu, if_true]
    by_cases hv : g.hasNode v
    · simp [hv]
    · simp [hv, add_node_edges]
  · simp only [hu, Bool.false_eq_true, if_false]
    by_cases hv : (g.add_node u []).hasNode v
    · simp [hv, add_node_edges]
    · simp [hv, add_node_edges]

theorem add_edge_nodes_of_present (g : NXDiGraph α) (u v : Node α) (attrs : AttrDict)
    (hu : g.hasNode u = true) (hv : g.hasNode v = true) :
    (g.add_edge u v attrs).nodes = g.nodes := by
  unfold NXDiGraph.add_edge
  simp only [hu, hv, if_pos]
  by_cases he : g.hasEdge u v <;> simp [he]

/-! Presence lemmas derived from the shape lemmas. -/

theorem hasNode_add_node (g : NXDiGraph α) (n : Node α) (attrs : AttrDict)
    (m : Node α) (h : g.hasNode m = true) : (g.add_node n attrs).hasNode m = true := by
  unfold NXDiGraph.hasNode at h ⊢
  rw [add_node_nodes]
  by_cases hn : g.hasNode n
  · simp only [hn, if_pos]
    rw [List.any_eq_true] at h ⊢
    rcases h with ⟨nd, hnd, hp⟩
    refine ⟨if nd.1 = n then (nd.1, updAttrs nd.2 attrs) else nd,
      List.mem_map_of_mem _ hnd, ?_⟩
    by_cases he : nd.1 = n <;> simp only [he, if_pos, if_neg, not_false_iff] <;>
      simpa [he] using hp
  · simp only [hn, Bool.false_eq_true, if_neg, not_false_iff]
    rw [List.any_eq_true] at h ⊢
    rcases h with ⟨nd, hnd, hp⟩
    exact ⟨nd, List.mem_append_left _ hnd, hp⟩

theorem hasNode_add_node_self (g : NXDiGraph α) (n : Node α) (attrs : AttrDict) :
    (g.add_node n attrs).hasNode n = true := by
  unfold NXDiGraph.hasNode
  rw [add_node_nodes]
  by_cases hn : g.hasNode n
  · simp only [hn, if_pos]
    unfold NXDiGraph.hasNode at hn
    rw [List.any_eq_true] at hn ⊢
    rcases hn with ⟨nd, hnd, hp⟩
    simp only [decide_eq_true_eq] at hp
    refine ⟨(nd.1, updAttrs nd.2 attrs), ?_, by simp [hp]⟩
    have heq : (fun nd : Node α × AttrDict =>
        if nd.1 = n then (nd.1, updAttrs nd.2 attrs) else nd) nd =
          (nd.1, updAttrs nd.2 attrs) := by simp [hp]
    rw [← heq]
    exact List.mem_map_of_mem _ hnd
  · simp only [hn, Bool.false_eq_true, if_neg, not_false_iff]
    rw [List.any_eq_true]
    exact ⟨(n, attrs), List.mem_append_right _ (List.mem_singleton.mpr rfl), by simp⟩

theorem hasNode_add_edge_of_present (g : NXDiGraph α) (u v : Node α) (attrs : AttrDict)
    (hu : g.hasNode u = true) (hv : g.hasNode v = true) (m : Node α)
    (h : g.hasNode m = true) : (g.add_edge u v attrs).hasNode m = true := by
  unfold NXDiGraph.hasNode
  rw [add_edge_nodes_of_present g u v attrs hu hv]
  exact h

theorem hasEdge_add_node (g : NXDiGraph α) (n : Node α) (attrs : AttrDict)
    (a b : Node α) : (g.add_node n attrs).hasEdge a b = g.hasEdge a b := by
  unfold NXDiGraph.hasEdge
  rw [add_node_edges]

theorem hasEdge_add_edge_self (g : NXDiGraph α) (u v : Node α) (attrs : AttrDict) :
    (g.add_edge u v attrs).hasEdge u v = true := by
  unfold NXDiGraph.hasEdge
  rw [add_edge_edges]
  by_cases h : g.hasEdge u v
  · simp only [h, if_pos]
    unfold NXDiGraph.hasEdge at h
    rw [List.any_eq_true] at h ⊢
    rcases h with ⟨ed, hed, hp⟩
    simp only [decide_eq_true_eq] at hp
    refine ⟨(ed.1, updAttrs ed.2 attrs), ?_, by simp [hp]⟩
    have heq : (fun ed : (Node α × Node α) × AttrDict =>
        if ed.1 = (u, v) then (ed.1, updAttrs ed.2 attrs) else ed) ed =
          (ed.1, updAttrs ed.2 attrs) := by simp [hp]
    rw [← heq]
    exact List.mem_map_of_mem _ hed
  · simp only [h, Bool.false_eq_true, if_neg, not_false_iff]
    rw [List.any_eq_true]
    exact ⟨((u, v), attrs), List.mem_append_right _ (List.mem_singleton.mpr rfl), by simp⟩

theorem hasEdge_add_edge (g : NXDiGraph α) (u v : Node α) (attrs : AttrDict)
    (a b : Node α) (h : g.hasEdge a b = true) :
    (g.add_edge u v attrs).hasEdge a b = true := by
  unfold NXDiGraph.hasEdge at h ⊢
  rw [add_edge_edges]
  by_cases he : g.hasEdge u v
  · simp only [he, if_pos]
    rw [List.any_eq_true] at h ⊢
    rcases h with ⟨ed, hed, hp⟩
    refine ⟨if ed.1 = (u, v) then (ed.1, updAttrs ed.2 attrs) else ed,
      List.mem_map_of_mem _ hed, ?_⟩
    by_cases hk : ed.1 = (u, v) <;> simp only [hk, if_pos, if_neg, not_false_iff] <;>
      simpa [hk] using hp
  · simp only [he, Bool.false_eq_true, if_neg, not_false_iff]
    rw [List.any_eq_true] at h ⊢
    rcases h with ⟨ed, hed, hp⟩
    exact ⟨ed, List.mem_append_left _ hed, hp⟩

theorem find?_of_hasNode (g : NXDiGraph α) (n : Node α) (h : g.hasNode n = true) :
    ∃ nd, g.nodes.find? (fun nd => decide (nd.1 = n)) = Option.some nd ∧
      nd ∈ g.nodes ∧ nd.1 = n := by
  unfold NXDiGraph.hasNode at h
  have hsome : (g.nodes.find? (fun nd => decide (nd.1 = n))).isSome := by
    rw [List.find?_isSome]
    rw [List.any_eq_true] at h
    exact h
  rcases Option.isSome_iff_exists.mp hsome with ⟨nd, hnd⟩
  refine ⟨nd, hnd, List.mem_of_find?_eq_some hnd, ?_⟩
  have := List.find?_some hnd
  simpa using this

/-! Well-formedness of graphs reachable through add_reaction. -/

/-- The node_type tag belonging to a node key. -/
def nodeTag : Node α → String
  | Node.expr _ => "expression"
  | Node.rxn _ => "reaction"

/-- The node_type attribute stored for a node of the graph, if any. -/
def nodeTypeOf (g : NXDiGraph α) (n : Node α) : Option Val :=
  (g.nodes.find? (fun nd => decide (nd.1 = n))).bind (fun nd => getAttr? nd.2 "node_type")

/-- Every node entry of the graph carries the canonical attribute
dictionary of its kind. -/
def WfNodes (g : NXDiGraph α) : Prop :=
  ∀ nd ∈ g.nodes, (∃ e, nd.1 = Node.expr e ∧ nd.2 = exprAttrs) ∨
    (∃ r m, nd.1 = Node.rxn r ∧ nd.2 = rxnAttrs r m)

/-- Every edge runs between an expression node and a reaction node and
both endpoints are present. -/
def WfEdges (g : NXDiGraph α) : Prop :=
  ∀ ed ∈ g.edges,
    ((∃ e r, ed.1 = (Node.expr e, Node.rxn r)) ∨
      (∃ r e, ed.1 = (Node.rxn r, Node.expr e))) ∧
    g.hasNode ed.1.1 = true ∧ g.hasNode ed.1.2 = true

/-- Well-formed graph: canonical node dictionaries and bipartite edges
with present endpoints. -/
def Wf (g : NXDiGraph α) : Prop := WfNodes g ∧ WfEdges g

theorem WfNodes_add_node_expr (g : NXDiGraph α) (e : α) (h : WfNodes g) :
    WfNodes (g.add_node (Node.expr e) exprAttrs) := by
  intro nd hnd
  rw [add_node_nodes] at hnd
  by_cases hn : g.hasNode (Node.expr e)
  · rw [if_pos hn] at hnd
    rcases List.mem_map.mp hnd with ⟨nd0, hnd0, hmap⟩
    rcases h nd0 hnd0 with ⟨e0, hk, hd⟩ | ⟨r0, m0, hk, hd⟩
    · by_cases hke : nd0.1 = Node.expr e
      · rw [if_pos hke] at hmap
        rw [← hmap]
        exact Or.inl ⟨e0, hk, by rw [hd, updAttrs_expr]⟩
      · rw [if_neg hke] at hmap
        rw [← hmap]
        exact Or.inl ⟨e0, hk, hd⟩
    · have hke : nd0.1 ≠ Node.expr e := by rw [hk]; intro hc; exact Node.noConfusion hc
      rw [if_neg hke] at hmap
      rw [← hmap]
      exact Or.inr ⟨r0, m0, hk, hd⟩
  · rw [if_neg hn] at hnd
    rcases List.mem_append.mp hnd with hl | hr
    · exact h nd hl
    · rw [List.mem_singleton.mp hr]
      exact Or.inl ⟨e, rfl, rfl⟩

theorem WfNodes_add_node_rxn (g : NXDiGraph α) (r : Reaction α) (j : Int)
    (h : WfNodes g) : WfNodes (g.add_node (Node.rxn r) (rxnAttrs r j)) := by
  intro nd hnd
  rw [add_node_nodes] at hnd
  by_cases hn : g.hasNode (Node.rxn r)
  · rw [if_pos hn] at hnd
    rcases List.mem_map.mp hnd with ⟨nd0, hnd0, hmap⟩
    rcases h nd0 hnd0 with ⟨e0, hk, hd⟩ | ⟨r0, m0, hk, hd⟩
    · have hke : nd0.1 ≠ Node.rxn r := by rw [hk]; intro hc; exact Node.noConfusion hc
      rw [if_neg hke] at hmap
      rw [← hmap]
      exact Or.inl ⟨e0, hk, hd⟩
    · by_cases hke : nd0.1 = Node.rxn r
      · rw [if_pos hke] at hmap
        have hr0 : r0 = r := by
          rw [hk] at hke
          exact (Node.rxn.injEq r0 r).mp hke
        rw [← hmap]
        refine Or.inr ⟨r, j, hke, ?_⟩
        rw [hd, hr0, updAttrs_rxn]
      · rw [if_neg hke] at hmap
        rw [← hmap]
        exact Or.inr ⟨r0, m0, hk, hd⟩
  · rw [if_neg hn] at hnd
    rcases List.mem_append.mp hnd with hl | hr
    · exact h nd hl
    · rw [List.mem_singleton.mp hr]
      exact Or.inr ⟨r, j, rfl, rfl⟩

theorem WfNodes_add_edge_of_present (g : NXDiGraph α) (u v : Node α)
    (attrs : AttrDict) (hu : g.hasNode u = true) (hv : g.hasNode v = true)
    (h : WfNodes g) : WfNodes (g.add_edge u v attrs) := by
  intro nd hnd
  rw [add_edge_nodes_of_present g u v attrs hu hv] at hnd
  exact h nd hnd

theorem WfEdges_add_node (g : NXDiGraph α) (n : Node α) (attrs : AttrDict)
    (h : WfEdges g) : WfEdges (g.add_node n attrs) := by
  intro ed hed
  rw [add_node_edges] at hed
  rcases h ed hed with ⟨hshape, h1, h2⟩
  exact ⟨hshape, hasNode_add_node g n attrs _ h1, hasNode_add_node g n attrs _ h2⟩

theorem WfEdges_add_edge (g : NXDiGraph α) (u v : Node α) (attrs : AttrDict)
    (hu : g.hasNode u = true) (hv : g.hasNode v = true)
    (hshape : (∃ e r, (u, v) = (Node.expr e, Node.rxn r)) ∨
      (∃ r e, (u, v) = (Node.rxn r, Node.expr e)))
    (h : WfEdges g) : WfEdges (g.add_edge u v attrs) := by
  have hpres : ∀ m : Node α, g.hasNode m = true →
      (g.add_edge u v attrs).hasNode m = true :=
    fun m hm => hasNode_add_edge_of_present g u v attrs hu hv m hm
  intro ed hed
  rw [add_edge_edges] at hed
  by_cases he : g.hasEdge u v
  · rw [if_pos he] at hed
    rcases List.mem_map.mp hed with ⟨ed0, hed0, hmap⟩
    rcases h ed0 hed0 with ⟨hshape0, h1, h2⟩
    by_cases hk : ed0.1 = (u, v)
    · rw [if_pos hk] at hmap
      rw [← hmap]
      exact ⟨hshape0, hpres _ h1, hpres _ h2⟩
    · rw [if_neg hk] at hmap
      rw [← hmap]
      exact ⟨hshape0, hpres _ h1, hpres _ h2⟩
  · rw [if_neg he] at hed
    rcases List.mem_append.mp hed with hl | hr
    · rcases h ed hl with ⟨hshape0, h1, h2⟩
      exact ⟨hshape0, hpres _ h1, hpres _ h2⟩
    · rw [List.mem_singleton.mp hr]
      exact ⟨hshape, hpres _ hu, hpres _ hv⟩

theorem Wf_add_reaction (g : NXDiGraph α) (r : Reaction α) (h : Wf g) :
    Wf (add_reaction g r) := by
  unfold add_reaction
  have hA : Wf (g.add_node (Node.rxn r)
        (rxnAttrs r ((get_occurrences g r).toInt + 1))) ∧
      (g.add_node (Node.rxn r)
        (rxnAttrs r ((get_occurrences g r).toInt + 1))).hasNode (Node.rxn r) = true :=
    ⟨⟨WfNodes_add_node_rxn g r _ h.1, WfEdges_add_node g _ _ h.2⟩,
      hasNode_add_node_self g _ _⟩
  have step1 : ∀ (b : NXDiGraph α) (x : α), x ∈ r.reactives →
      Wf b ∧ b.hasNode (Node.rxn r) = true →
      Wf ((b.add_node (Node.expr x) exprAttrs).add_edge (Node.expr x) (Node.rxn r)
          (subAttrs (decide (x = r.get_substrate)))) ∧
        ((b.add_node (Node.expr x) exprAttrs).add_edge (Node.expr x) (Node.rxn r)
          (subAttrs (decide (x = r.get_substrate)))).hasNode (Node.rxn r) = true := by
    intro b x _ hb
    have hbn : (b.add_node (Node.expr x) exprAttrs).hasNode (Node.expr x) = true :=
      hasNode_add_node_self b _ _
    have hbr : (b.add_node (Node.expr x) exprAttrs).hasNode (Node.rxn r) = true :=
      hasNode_add_node b _ _ _ hb.2
    refine ⟨⟨?_, ?_⟩, ?_⟩
    · exact WfNodes_add_edge_of_present _ _ _ _ hbn hbr
        (WfNodes_add_node_expr b x hb.1.1)
    · exact WfEdges_add_edge _ _ _ _ hbn hbr (Or.inl ⟨x, r, rfl⟩)
        (WfEdges_add_node b _ _ hb.1.2)
    · exact hasNode_add_edge_of_present _ _ _ _ hbn hbr _ hbr
  have step2 : ∀ (b : NXDiGraph α) (p : α), p ∈ r.products →
      Wf b ∧ b.hasNode (Node.rxn r) = true →
      Wf ((b.add_node (Node.expr p) exprAttrs).add_edge (Node.rxn r) (Node.expr p)
          (subAttrs false)) ∧
        ((b.add_node (Node.expr p) exprAttrs).add_edge (Node.rxn r) (Node.expr p)
          (subAttrs false)).hasNode (Node.rxn r) = true := by
    intro b p _ hb
    have hbn : (b.add_node (Node.expr p) exprAttrs).hasNode (Node.expr p) = true :=
      hasNode_add_node_self b _ _
    have hbr : (b.add_node (Node.expr p) exprAttrs).hasNode (Node.rxn r) = true :=
      hasNode_add_node b _ _ _ hb.2
    refine ⟨⟨?_, ?_⟩, ?_⟩
    · exact WfNodes_add_edge_of_present _ _ _ _ hbr hbn
        (WfNodes_add_node_expr b p hb.1.1)
    · exact WfEdges_add_edge _ _ _ _ hbr hbn (Or.inr ⟨r, p, rfl⟩)
        (WfEdges_add_node b _ _ hb.1.2)
    · exact hasNode_add_edge_of_present _ _ _ _ hbr hbn _ hbr
  exact (foldl_inv (fun b => Wf b ∧ b.hasNode (Node.rxn r) = true) _ r.products _
    (foldl_inv (fun b => Wf b ∧ b.hasNode (Node.rxn r) = true) _ r.reactives _
      hA step1) step2).1

theorem Wf_empty : Wf (NXDiGraph.empty : NXDiGraph α) :=
  ⟨fun nd hnd => absurd hnd (List.not_mem_nil nd),
    fun ed hed => absurd hed (List.not_mem_nil ed)⟩

theorem Wf_buildGraph (rs : List (Reaction α)) : Wf (buildGraph rs) :=
  foldl_inv Wf add_reaction rs NXDiGraph.empty Wf_empty
    (fun b x _ hb => Wf_add_reaction b x hb)

theorem nodeTypeOf_of_wf (g : NXDiGraph α) (h : WfNodes g) (n : Node α)
    (hp : g.hasNode n = true) :
    nodeTypeOf g n = Option.some (Val.str (nodeTag n)) := by
  rcases find?_of_hasNode g n hp with ⟨nd, hfind, hmem, hkey⟩
  unfold nodeTypeOf
  rw [hfind]
  show getAttr? nd.2 "node_type" = Option.some (Val.str (nodeTag n))
  rcases h nd hmem with ⟨e, hk, hd⟩ | ⟨r, m, hk, hd⟩
  · rw [hd, ← hkey, hk]
    rfl
  · rw [hd, ← hkey, hk]
    rfl

/-- C3: in every graph reachable from the empty graph by add_reaction
calls, every edge joins a node whose node_type attribute is
"expression" with a node whose node_type attribute is "reaction"; no
edge joins two nodes of the same node_type. -/
theorem bipartite_edges (rs : List (Reaction α)) :
    ∀ ed ∈ (buildGraph rs).edges,
      (nodeTypeOf (buildGraph rs) ed.1.1 = Option.some (Val.str "expression") ∧
        nodeTypeOf (buildGraph rs) ed.1.2 = Option.some (Val.str "reaction")) ∨
      (nodeTypeOf (buildGraph rs) ed.1.1 = Option.some (Val.str "reaction") ∧
        nodeTypeOf (buildGraph rs) ed.1.2 = Option.some (Val.str "expression")) := by
  intro ed hed
  have hwf := Wf_buildGraph rs
  rcases hwf.2 ed hed with ⟨hshape, h1, h2⟩
  have t1 := nodeTypeOf_of_wf _ hwf.1 ed.1.1 h1
  have t2 := nodeTypeOf_of_wf _ hwf.1 ed.1.2 h2
  rcases hshape with ⟨e, r, hk⟩ | ⟨r, e, hk⟩
  · left
    constructor
    · rw [t1, show ed.1.1 = Node.expr e by rw [hk]]
      rfl
    · rw [t2, show ed.1.2 = Node.rxn r by rw [hk]]
      rfl
  · right
    constructor
    · rw [t1, show ed.1.1 = Node.rxn r by rw [hk]]
      rfl
    · rw [t2, show ed.1.2 = Node.expr e by rw [hk]]
      rfl

def rC3 : Reaction Nat := ⟨"reduce", [1], [2], 1⟩

def gC3 : NXDiGraph Nat := buildGraph [rC3]

/-- C3 witness: the reactive edge from expression 1 into the reaction
node of the one-reaction graph joins an expression node and a reaction
node. -/
theorem bipartite_edges_witness :
    (nodeTypeOf gC3 (Node.expr 1) = Option.some (Val.str "expression") ∧
      nodeTypeOf gC3 (Node.rxn rC3) = Option.some (Val.str "reaction")) ∨
    (nodeTypeOf gC3 (Node.expr 1) = Option.some (Val.str "reaction") ∧
      nodeTypeOf gC3 (Node.rxn rC3) = Option.some (Val.str "expression")) :=
  bipartite_edges [rC3] ((Node.expr 1, Node.rxn rC3), subAttrs true) (by decide)

/-! C7: remove_selfloop semantics. -/

theorem mem_nodes_hasNode (g : NXDiGraph α) (nd : Node α × AttrDict)
    (h : nd ∈ g.nodes) : g.hasNode nd.1 = true := by
  unfold NXDiGraph.hasNode
  rw [List.any_eq_true]
  exact ⟨nd, h, by simp⟩

theorem mem_selfloop_list (g : NXDiGraph α) (hwf : Wf g) (x : Node α) :
    (x ∈ g.nodes.filterMap (fun nd =>
        if getAttr? nd.2 "node_type" = Option.some (Val.str "reaction") ∧
            selfloopKey nd.1 = true
        then Option.some nd.1 else Option.none)) ↔
      g.hasNode x = true ∧ selfloopKey x = true := by
  constructor
  · intro hx
    rcases List.mem_filterMap.mp hx with ⟨nd, hnd, hsome⟩
    by_cases hc : getAttr? nd.2 "node_type" = Option.some (Val.str "reaction") ∧
        selfloopKey nd.1 = true
    · rw [if_pos hc] at hsome
      have hk : nd.1 = x := Option.some.inj hsome
      rw [← hk]
      exact ⟨mem_nodes_hasNode g nd hnd, hc.2⟩
    · rw [if_neg hc] at hsome
      exact Option.noConfusion hsome
  · intro ⟨hnode, hkey⟩
    unfold NXDiGraph.hasNode at hnode
    rw [List.any_eq_true] at hnode
    rcases hnode with ⟨nd, hnd, hp⟩
    simp only [decide_eq_true_eq] at hp
    have hattr : getAttr? nd.2 "node_type" = Option.some (Val.str "reaction") := by
      rcases hwf.1 nd hnd with ⟨e, hk, hd⟩ | ⟨r0, m0, hk, hd⟩
      · rw [hp] at hk
        rw [hk] at hkey
        unfold selfloopKey at hkey
        exact Bool.noConfusion hkey
      · rw [hd]
        exact getAttr?_rxn_node_type r0 m0
    apply List.mem_filterMap.mpr
    refine ⟨nd, hnd, ?_⟩
    rw [if_pos ⟨hattr, by rw [hp]; exact hkey⟩, hp]

theorem decide_not_of_iff (P : Prop) [Decidable P] (b : Bool)
    (h : P ↔ b = true) : decide (¬ P) = !b := by
  cases b <;> simp [h]

theorem decide_not_and_of_iff (P Q : Prop) [Decidable P] [Decidable Q]
    (a b : Bool) (hP : P ↔ a = true) (hQ : Q ↔ b = true) :
    decide (¬ P ∧ ¬ Q) = (!a && !b) := by
  cases a <;> cases b <;> simp [hP, hQ]

theorem remove_selfloop_amended_aux (g : NXDiGraph α) (hwf : Wf g) :
    (remove_selfloop g).nodes =
        g.nodes.filter (fun nd => !(selfloopKey nd.1)) ∧
      (remove_selfloop g).edges =
        g.edges.filter (fun ed => !(selfloopKey ed.1.1) && !(selfloopKey ed.1.2)) := by
  have hiff : ∀ y : Node α, g.hasNode y = true →
      ((y ∈ g.nodes.filterMap (fun nd =>
        if getAttr? nd.2 "node_type" = Option.some (Val.str "reaction") ∧
            selfloopKey nd.1 = true
        then Option.some nd.1 else Option.none)) ↔ selfloopKey y = true) := by
    intro y hy
    rw [mem_selfloop_list g hwf y]
    exact ⟨fun h => h.2, fun h => ⟨hy, h⟩⟩
  unfold remove_selfloop NXDiGraph.remove_nodes_from
  constructor
  · apply List.filter_congr
    intro nd hnd
    exact decide_not_of_iff _ (selfloopKey nd.1)
      (hiff nd.1 (mem_nodes_hasNode g nd hnd))
  · apply List.filter_congr
    intro ed hed
    rcases hwf.2 ed hed with ⟨_, h1, h2⟩
    exact decide_not_and_of_iff _ _ (selfloopKey ed.1.1) (selfloopKey ed.1.2)
      (hiff ed.1.1 h1) (hiff ed.1.2 h2)

/-- C7 amended: on every graph reachable through add_reaction,
remove_selfloop deletes exactly the reaction nodes whose reactive list
equals their product list as ordered lists, together with their
incident edges, and leaves every other node and edge with its
attributes unchanged. A reaction whose products are a proper
permutation of its reactives is kept, not deleted. -/
theorem remove_selfloop_amended (rs : List (Reaction α)) :
    (remove_selfloop (buildGraph rs)).nodes =
        (buildGraph rs).nodes.filter (fun nd => !(selfloopKey nd.1)) ∧
      (remove_selfloop (buildGraph rs)).edges =
        (buildGraph rs).edges.filter
          (fun ed => !(selfloopKey ed.1.1) && !(selfloopKey ed.1.2)) :=
  remove_selfloop_amended_aux (buildGraph rs) (Wf_buildGraph rs)

def rC7 : Reaction Nat := ⟨"reduce", [1, 2], [2, 1], 1⟩

def gC7 : NXDiGraph Nat := buildGraph [rC7]

/-- C7 counterexample: the reaction with reactives [1, 2] and products
[2, 1] has equal reactive and product multisets, yet remove_selfloop
leaves the graph unchanged and the reaction node stays present,
contradicting the claim that multiset-equal (permutation) reactions are
deleted. -/
theorem remove_selfloop_claim_false :
    Multiset.ofList rC7.reactives = Multiset.ofList rC7.products ∧
      remove_selfloop gC7 = gC7 ∧
      gC7.hasNode (Node.rxn rC7) = true := by
  refine ⟨by decide, by decide, by decide⟩

def rC7w : Reaction Nat := ⟨"reduce", [3], [3], 3⟩

/-- C7 amended witness: on the one-reaction graph whose reaction has
identical reactive and product lists, remove_selfloop keeps exactly the
non-selfloop entries. -/
theorem remove_selfloop_amended_witness :
    (remove_selfloop (buildGraph [rC7w])).nodes =
        (buildGraph [rC7w]).nodes.filter (fun nd => !(selfloopKey nd.1)) ∧
      (remove_selfloop (buildGraph [rC7w])).edges =
        (buildGraph [rC7w]).edges.filter
          (fun ed => !(selfloopKey ed.1.1) && !(selfloopKey ed.1.2)) :=
  remove_selfloop_amended [rC7w]

/-! C4: repeated insertion of a value-equal reaction. -/

/-- The graph with the occurrences attribute of the given reaction node
overwritten: the only difference the claim allows between inserting a
reaction k times and inserting it once. -/
def set_occurrences (g : NXDiGraph α) (r : Reaction α) (k : Int) : NXDiGraph α :=
  { g with nodes := (g.nodes.map (fun nd : Node α × AttrDict =>
      if nd.1 = Node.rxn r then (nd.1, setAttr nd.2 "occurrences" (Val.int k))
      else nd)) }

/-- Canonical shape of any graph obtained by inserting the single
reaction r some positive number of times: the reaction node carries its
canonical dictionary with occurrence count m, every other node is an
expression node with the canonical expression dictionary, every edge is
a reactive or product edge of r with its canonical dictionary, and all
nodes and edges that add_reaction writes are present. -/
def SoloInv (g : NXDiGraph α) (r : Reaction α) (m : Int) : Prop :=
  (∀ nd ∈ g.nodes, (∃ e, nd.1 = Node.expr e ∧ nd.2 = exprAttrs) ∨
    (nd.1 = Node.rxn r ∧ nd.2 = rxnAttrs r m)) ∧
  g.hasNode (Node.rxn r) = true ∧
  (∀ x ∈ r.reactives, g.hasNode (Node.expr x) = true) ∧
  (∀ p ∈ r.products, g.hasNode (Node.expr p) = true) ∧
  (∀ ed ∈ g.edges,
    (∃ x, ed.1 = (Node.expr x, Node.rxn r) ∧
      ed.2 = subAttrs (decide (x = r.get_substrate))) ∨
    (∃ p, ed.1 = (Node.rxn r, Node.expr p) ∧ ed.2 = subAttrs false)) ∧
  (∀ x ∈ r.reactives, g.hasEdge (Node.expr x) (Node.rxn r) = true) ∧
  (∀ p ∈ r.products, g.hasEdge (Node.rxn r) (Node.expr p) = true)

theorem list_map_congr {β γ : Type _} {f h : β → γ} :
    ∀ (l : List β), (∀ x ∈ l, f x = h x) → l.map f = l.map h := by
  intro l
  induction l with
  | nil => intro _; rfl
  | cons x xs ih =>
      intro hp
      simp only [List.map_cons]
      rw [hp x (List.mem_cons_self x xs), ih (fun y hy => hp y (List.mem_cons_of_mem x hy))]

theorem list_map_id {β : Type _} {f : β → β} :
    ∀ (l : List β), (∀ x ∈ l, f x = x) → l.map f = l := by
  intro l hp
  rw [list_map_congr l (f := f) (h := id) hp, List.map_id]

theorem list_any_congr {β : Type _} {p q : β → Bool} :
    ∀ (l : List β), (∀ x ∈ l, p x = q x) → l.any p = l.any q := by
  intro l
  induction l with
  | nil => intro _; rfl
  | cons x xs ih =>
      intro hp
      simp only [List.any_cons]
      rw [hp x (List.mem_cons_self x xs), ih (fun y hy => hp y (List.mem_cons_of_mem x hy))]

theorem setOcc_edges (g : NXDiGraph α) (r : Reaction α) (k : Int) :
    (set_occurrences g r k).edges = g.edges := rfl

theorem setOcc_hasNode (g : NXDiGraph α) (r : Reaction α) (k : Int) (x : Node α) :
    (set_occurrences g r k).hasNode x = g.hasNode x := by
  unfold NXDiGraph.hasNode set_occurrences
  simp only
  rw [List.any_map]
  apply list_any_congr
  intro nd _
  by_cases hk : nd.1 = Node.rxn r <;> simp [hk, Function.comp]

theorem setOcc_hasEdge (g : NXDiGraph α) (r : Reaction α) (k : Int)
    (a b : Node α) : (set_occurrences g r k).hasEdge a b = g.hasEdge a b := rfl

theorem get_occurrences_of_solo (g : NXDiGraph α) (r : Reaction α) (m : Int)
    (h : SoloInv g r m) : get_occurrences g r = Val.int m := by
  rcases find?_of_hasNode g (Node.rxn r) h.2.1 with ⟨nd, hfind, hmem, hkey⟩
  have hd : nd.2 = rxnAttrs r m := by
    rcases h.1 nd hmem with ⟨e, hk, _⟩ | ⟨_, hd⟩
    · rw [hkey] at hk
      exact absurd hk.symm (by intro hc; exact Node.noConfusion hc)
    · exact hd
  unfold get_occurrences get_node_attribute
  rw [hfind]
  show (getAttr? nd.2 "occurrences").getD Val.none = Val.int m
  rw [hd]
  rfl

theorem SoloInv_setOcc (g : NXDiGraph α) (r : Reaction α) (m : Int)
    (h : SoloInv g r m) (j : Int) : SoloInv (set_occurrences g r j) r j := by
  obtain ⟨hn, hr, hre, hpr, he, hree, hpre⟩ := h
  refine ⟨?_, ?_, ?_, ?_, ?_, ?_, ?_⟩
  · intro nd hnd
    rcases List.mem_map.mp hnd with ⟨nd0, hnd0, hmap⟩
    rcases hn nd0 hnd0 with ⟨e, hk, hd⟩ | ⟨hk, hd⟩
    · have hke : nd0.1 ≠ Node.rxn r := by rw [hk]; intro hc; exact Node.noConfusion hc
      rw [if_neg hke] at hmap
      rw [← hmap]
      exact Or.inl ⟨e, hk, hd⟩
    · rw [if_pos hk] at hmap
      rw [← hmap]
      refine Or.inr ⟨hk, ?_⟩
      rw [hd, setAttr_occ]
  · rw [setOcc_hasNode]; exact hr
  · intro x hx; rw [setOcc_hasNode]; exact hre x hx
  · intro p hp; rw [setOcc_hasNode]; exact hpr p hp
  · intro ed hed
    rw [setOcc_edges] at hed
    exact he ed hed
  · intro x hx; rw [setOcc_hasEdge]; exact hree x hx
  · intro p hp; rw [setOcc_hasEdge]; exact hpre p hp

theorem setOcc_id_of_solo (g : NXDiGraph α) (r : Reaction α) (m : Int)
    (h : SoloInv g r m) : set_occurrences g r m = g := by
  unfold set_occurrences
  have hid : (g.nodes.map (fun nd : Node α × AttrDict =>
      if nd.1 = Node.rxn r then (nd.1, setAttr nd.2 "occurrences" (Val.int m))
      else nd)) = g.nodes := by
    apply list_map_id
    intro nd hnd
    rcases h.1 nd hnd with ⟨e, hk, _⟩ | ⟨hk, hd⟩
    · rw [if_neg (by rw [hk]; intro hc; exact Node.noConfusion hc)]
    · rw [if_pos hk, hd, setAttr_occ]
      rw [← hd]
  rw [hid]

theorem setOcc_setOcc_of_solo (g : NXDiGraph α) (r : Reaction α) (m : Int)
    (h : SoloInv g r m) (j j' : Int) :
    set_occurrences (set_occurrences g r j) r j' = set_occurrences g r j' := by
  unfold set_occurrences
  simp only [List.map_map]
  congr 1
  apply list_map_congr
  intro nd hnd
  rcases h.1 nd hnd with ⟨e, hk, _⟩ | ⟨hk, hd⟩
  · have hke : nd.1 ≠ Node.rxn r := by rw [hk]; intro hc; exact Node.noConfusion hc
    simp [Function.comp, hke]
  · simp only [Function.comp, hk, if_pos, hd, setAttr_occ]

theorem add_node_rxn_on_solo (g : NXDiGraph α) (r : Reaction α) (m : Int)
    (h : SoloInv g r m) (j : Int) :
    g.add_node (Node.rxn r) (rxnAttrs r j) = set_occurrences g r j := by
  simp only [NXDiGraph.add_node, h.2.1, if_true]
  unfold set_occurrences
  congr 1
  apply list_map_congr
  intro nd hnd
  rcases h.1 nd hnd with ⟨e, hk, _⟩ | ⟨hk, hd⟩
  · have hke : nd.1 ≠ Node.rxn r := by rw [hk]; intro hc; exact Node.noConfusion hc
    rw [if_neg hke, if_neg hke]
  · rw [if_pos hk, if_pos hk, hd, updAttrs_rxn, setAttr_occ]

theorem add_node_expr_id (g : NXDiGraph α) (r : Reaction α) (m : Int)
    (h : SoloInv g r m) (x : α) (hx : g.hasNode (Node.expr x) = true) :
    g.add_node (Node.expr x) exprAttrs = g := by
  simp only [NXDiGraph.add_node, hx, if_true]
  have hid : (g.nodes.map (fun nd : Node α × AttrDict =>
      if nd.1 = Node.expr x then (nd.1, updAttrs nd.2 exprAttrs) else nd)) = g.nodes := by
    apply list_map_id
    intro nd hnd
    by_cases hk : nd.1 = Node.expr x
    · rcases h.1 nd hnd with ⟨e, _, hd⟩ | ⟨hk2, _⟩
      · rw [if_pos hk, hd, updAttrs_expr, ← hd]
      · rw [hk] at hk2
        exact absurd hk2 (by intro hc; exact Node.noConfusion hc)
    · rw [if_neg hk]
  rw [hid]

theorem add_edge_id (g : NXDiGraph α) (u v : Node α) (attrs : AttrDict)
    (hu : g.hasNode u = true) (hv : g.hasNode v = true)
    (he : g.hasEdge u v = true)
    (hdict : ∀ ed ∈ g.edges, ed.1 = (u, v) → updAttrs ed.2 attrs = ed.2) :
    g.add_edge u v attrs = g := by
  simp only [NXDiGraph.add_edge, hu, hv, if_true, he]
  have hid : (g.edges.map (fun ed : (Node α × Node α) × AttrDict =>
      if ed.1 = (u, v) then (ed.1, updAttrs ed.2 attrs) else ed)) = g.edges := by
    apply list_map_id
    intro ed hed
    by_cases hk : ed.1 = (u, v)
    · rw [if_pos hk, hdict ed hed hk]
    · rw [if_neg hk]
  rw [hid]

/-- The body of the reactives loop of add_reaction. -/
def reactStep (r : Reaction α) (g : NXDiGraph α) (x : α) : NXDiGraph α :=
  (g.add_node (Node.expr x) exprAttrs).add_edge (Node.expr x) (Node.rxn r)
    (subAttrs (decide (x = r.get_substrate)))

/-- The body of the products loop of add_reaction. -/
def prodStep (r : Reaction α) (g : NXDiGraph α) (p : α) : NXDiGraph α :=
  (g.add_node (Node.expr p) exprAttrs).add_edge (Node.rxn r) (Node.expr p)
    (subAttrs false)

theorem add_reaction_eq_folds (g : NXDiGraph α) (r : Reaction α) :
    add_reaction g r =
      r.products.foldl (prodStep r) (r.reactives.foldl (reactStep r)
        (g.add_node (Node.rxn r) (rxnAttrs r ((get_occurrences g r).toInt + 1)))) := rfl

/-- The node entries a solo graph may contain. -/
def SoloNodesOk (r : Reaction α) (m : Int) (l : List (Node α × AttrDict)) : Prop :=
  ∀ nd ∈ l, (∃ e, nd.1 = Node.expr e ∧ nd.2 = exprAttrs) ∨
    (nd.1 = Node.rxn r ∧ nd.2 = rxnAttrs r m)

/-- The edge entries a solo graph may contain. -/
def SoloEdgesOk (r : Reaction α) (l : List ((Node α × Node α) × AttrDict)) : Prop :=
  ∀ ed ∈ l, (∃ x, ed.1 = (Node.expr x, Node.rxn r) ∧
      ed.2 = subAttrs (decide (x = r.get_substrate))) ∨
    (∃ p, ed.1 = (Node.rxn r, Node.expr p) ∧ ed.2 = subAttrs false)

/-- The structural part of SoloInv, without the presence clauses. -/
def SoloCore (g : NXDiGraph α) (r : Reaction α) (m : Int) : Prop :=
  SoloNodesOk r m g.nodes ∧ g.hasNode (Node.rxn r) = true ∧ SoloEdgesOk r g.edges

theorem soloNodes_add_node_expr (g : NXDiGraph α) (r : Reaction α) (m : Int)
    (e : α) (h : SoloNodesOk r m g.nodes) :
    SoloNodesOk r m (g.add_node (Node.expr e) exprAttrs).nodes := by
  intro nd hnd
  rw [add_node_nodes] at hnd
  by_cases hn : g.hasNode (Node.expr e)
  · rw [if_pos hn] at hnd
    rcases List.mem_map.mp hnd with ⟨nd0, hnd0, hmap⟩
    rcases h nd0 hnd0 with ⟨e0, hk, hd⟩ | ⟨hk, hd⟩
    · by_cases hke : nd0.1 = Node.expr e
      · rw [if_pos hke] at hmap
        rw [← hmap]
        exact Or.inl ⟨e0, hk, by rw [hd, updAttrs_expr]⟩
      · rw [if_neg hke] at hmap
        rw [← hmap]
        exact Or.inl ⟨e0, hk, hd⟩
    · have hke : nd0.1 ≠ Node.expr e := by rw [hk]; intro hc; exact Node.noConfusion hc
      rw [if_neg hke] at hmap
      rw [← hmap]
      exact Or.inr ⟨hk, hd⟩
  · rw [if_neg hn] at hnd
    rcases List.mem_append.mp hnd with hl | hr
    · exact h nd hl
    · rw [List.mem_singleton.mp hr]
      exact Or.inl ⟨e, rfl, rfl⟩

theorem soloEdges_add_edge_react (g : NXDiGraph α) (r : Reaction α) (x : α)
    (h : SoloEdgesOk r g.edges) :
    SoloEdgesOk r ((g.add_edge (Node.expr x) (Node.rxn r)
      (subAttrs (decide (x = r.get_substrate)))).edges) := by
  intro ed hed
  rw [add_edge_edges] at hed
  by_cases he : g.hasEdge (Node.expr x) (Node.rxn r)
  · rw [if_pos he] at hed
    rcases List.mem_map.mp hed with ⟨ed0, hed0, hmap⟩
    by_cases hk : ed0.1 = (Node.expr x, Node.rxn r)
    · rw [if_pos hk] at hmap
      have hsub : ∃ b, ed0.2 = subAttrs b := by
        rcases h ed0 hed0 with ⟨x', _, hd⟩ | ⟨p', _, hd⟩
        · exact ⟨_, hd⟩
        · exact ⟨_, hd⟩
      rcases hsub with ⟨b, hb⟩
      rw [← hmap]
      exact Or.inl ⟨x, hk, by rw [hb, updAttrs_sub]⟩
    · rw [if_neg hk] at hmap
      rw [← hmap]
      exact h ed0 hed0
  · rw [if_neg he] at hed
    rcases List.mem_append.mp hed with hl | hr
    · exact h ed hl
    · rw [List.mem_singleton.mp hr]
      exact Or.inl ⟨x, rfl, rfl⟩

theorem soloEdges_add_edge_prod (g : NXDiGraph α) (r : Reaction α) (p : α)
    (h : SoloEdgesOk r g.edges) :
    SoloEdgesOk r ((g.add_edge (Node.rxn r) (Node.expr p) (subAttrs false)).edges) := by
  intro ed hed
  rw [add_edge_edges] at hed
  by_cases he : g.hasEdge (Node.rxn r) (Node.expr p)
  · rw [if_pos he] at hed
    rcases List.mem_map.mp hed with ⟨ed0, hed0, hmap⟩
    by_cases hk : ed0.1 = (Node.rxn r, Node.expr p)
    · rw [if_pos hk] at hmap
      have hsub : ∃ b, ed0.2 = subAttrs b := by
        rcases h ed0 hed0 with ⟨x', _, hd⟩ | ⟨p', _, hd⟩
        · exact ⟨_, hd⟩
        · exact ⟨_, hd⟩
      rcases hsub with ⟨b, hb⟩
      rw [← hmap]
      exact Or.inr ⟨p, hk, by rw [hb, updAttrs_sub]⟩
    · rw [if_neg hk] at hmap
      rw [← hmap]
      exact h ed0 hed0
  · rw [if_neg he] at hed
    rcases List.mem_append.mp hed with hl | hr
    · exact h ed hl
    · rw [List.mem_singleton.mp hr]
      exact Or.inr ⟨p, rfl, rfl⟩

theorem reactStep_core (r : Reaction α) (g : NXDiGraph α) (x : α)
    (h : SoloCore g r 1) :
    SoloCore (reactStep r g x) r 1 ∧
      (∀ y, g.hasNode y = true → (reactStep r g x).hasNode y = true) ∧
      (∀ a b, g.hasEdge a b = true → (reactStep r g x).hasEdge a b = true) ∧
      (reactStep r g x).hasNode (Node.expr x) = true ∧
      (reactStep r g x).hasEdge (Node.expr x) (Node.rxn r) = true := by
  obtain ⟨hn, hr, he⟩ := h
  have h1x : (g.add_node (Node.expr x) exprAttrs).hasNode (Node.expr x) = true :=
    hasNode_add_node_self g _ _
  have h1r : (g.add_node (Node.expr x) exprAttrs).hasNode (Node.rxn r) = true :=
    hasNode_add_node g _ _ _ hr
  unfold reactStep
  refine ⟨⟨?_, ?_, ?_⟩, ?_, ?_, ?_, ?_⟩
  · have hnodes := add_edge_nodes_of_present (g.add_node (Node.expr x) exprAttrs)
      (Node.expr x) (Node.rxn r) (subAttrs (decide (x = r.get_substrate))) h1x h1r
    intro nd hnd
    rw [hnodes] at hnd
    exact soloNodes_add_node_expr g r 1 x hn nd hnd
  · exact hasNode_add_edge_of_present _ _ _ _ h1x h1r _ h1r
  · apply soloEdges_add_edge_react
    rw [add_node_edges]
    exact he
  · intro y hy
    exact hasNode_add_edge_of_present _ _ _ _ h1x h1r y (hasNode_add_node g _ _ y hy)
  · intro a b hab
    apply hasEdge_add_edge
    rw [hasEdge_add_node]
    exact hab
  · exact hasNode_add_edge_of_present _ _ _ _ h1x h1r _ h1x
  · exact hasEdge_add_edge_self _ _ _ _

theorem prodStep_core (r : Reaction α) (g : NXDiGraph α) (p : α)
    (h : SoloCore g r 1) :
    SoloCore (prodStep r g p) r 1 ∧
      (∀ y, g.hasNode y = true → (prodStep r g p).hasNode y = true) ∧
      (∀ a b, g.hasEdge a b = true → (prodStep r g p).hasEdge a b = true) ∧
      (prodStep r g p).hasNode (Node.expr p) = true ∧
      (prodStep r g p).hasEdge (Node.rxn r) (Node.expr p) = true := by
  obtain ⟨hn, hr, he⟩ := h
  have h1p : (g.add_node (Node.expr p) exprAttrs).hasNode (Node.expr p) = true :=
    hasNode_add_node_self g _ _
  have h1r : (g.add_node (Node.expr p) exprAttrs).hasNode (Node.rxn r) = true :=
    hasNode_add_node g _ _ _ hr
  unfold prodStep
  refine ⟨⟨?_, ?_, ?_⟩, ?_, ?_, ?_, ?_⟩
  · have hnodes := add_edge_nodes_of_present (g.add_node (Node.expr p) exprAttrs)
      (Node.rxn r) (Node.expr p) (subAttrs false) h1r h1p
    intro nd hnd
    rw [hnodes] at hnd
    exact soloNodes_add_node_expr g r 1 p hn nd hnd
  · exact hasNode_add_edge_of_present _ _ _ _ h1r h1p _ h1r
  · apply soloEdges_add_edge_prod
    rw [add_node_edges]
    exact he
  · intro y hy
    exact hasNode_add_edge_of_present _ _ _ _ h1r h1p y (hasNode_add_node g _ _ y hy)
  · intro a b hab
    apply hasEdge_add_edge
    rw [hasEdge_add_node]
    exact hab
  · exact hasNode_add_edge_of_present _ _ _ _ h1r h1p _ h1p
  · exact hasEdge_add_edge_self _ _ _ _

theorem fold_react_solo (r : Reaction α) :
    ∀ (l : List α) (g : NXDiGraph α), SoloCore g r 1 →
      SoloCore (l.foldl (reactStep r) g) r 1 ∧
      (∀ y, g.hasNode y = true → (l.foldl (reactStep r) g).hasNode y = true) ∧
      (∀ a b, g.hasEdge a b = true → (l.foldl (reactStep r) g).hasEdge a b = true) ∧
      (∀ x ∈ l, (l.foldl (reactStep r) g).hasNode (Node.expr x) = true ∧
        (l.foldl (reactStep r) g).hasEdge (Node.expr x) (Node.rxn r) = true) := by
  intro l
  induction l with
  | nil =>
      intro g h
      exact ⟨h, fun y hy => hy, fun a b hab => hab,
        fun x hx => absurd hx (List.not_mem_nil x)⟩
  | cons x xs ih =>
      intro g h
      obtain ⟨hc, hN, hE, hxn, hxe⟩ := reactStep_core r g x h
      obtain ⟨ihc, ihN, ihE, ihall⟩ := ih (reactStep r g x) hc
      rw [List.foldl_cons]
      refine ⟨ihc, fun y hy => ihN y (hN y hy), fun a b hab => ihE a b (hE a b hab), ?_⟩
      intro z hz
      rcases List.mem_cons.mp hz with hz1 | hz2
      · subst hz1
        exact ⟨ihN _ hxn, ihE _ _ hxe⟩
      · exact ihall z hz2

theorem fold_prod_solo (r : Reaction α) :
    ∀ (l : List α) (g : NXDiGraph α), SoloCore g r 1 →
      SoloCore (l.foldl (prodStep r) g) r 1 ∧
      (∀ y, g.hasNode y = true → (l.foldl (prodStep r) g).hasNode y = true) ∧
      (∀ a b, g.hasEdge a b = true → (l.foldl (prodStep r) g).hasEdge a b = true) ∧
      (∀ p ∈ l, (l.foldl (prodStep r) g).hasNode (Node.expr p) = true ∧
        (l.foldl (prodStep r) g).hasEdge (Node.rxn r) (Node.expr p) = true) := by
  intro l
  induction l with
  | nil =>
      intro g h
      exact ⟨h, fun y hy => hy, fun a b hab => hab,
        fun x hx => absurd hx (List.not_mem_nil x)⟩
  | cons x xs ih =>
      intro g h
      obtain ⟨hc, hN, hE, hxn, hxe⟩ := prodStep_core r g x h
      obtain ⟨ihc, ihN, ihE, ihall⟩ := ih (prodStep r g x) hc
      rw [List.foldl_cons]
      refine ⟨ihc, fun y hy => ihN y (hN y hy), fun a b hab => ihE a b (hE a b hab), ?_⟩
      intro z hz
      rcases List.mem_cons.mp hz with hz1 | hz2
      · subst hz1
        exact ⟨ihN _ hxn, ihE _ _ hxe⟩
      · exact ihall z hz2

theorem SoloInv_first (r : Reaction α) :
    SoloInv (add_reaction NXDiGraph.empty r) r 1 := by
  rw [add_reaction_eq_folds]
  have hocc : ((get_occurrences (NXDiGraph.empty : NXDiGraph α) r).toInt + 1) = 1 := rfl
  rw [hocc]
  have hbase : (NXDiGraph.empty : NXDiGraph α).add_node (Node.rxn r) (rxnAttrs r 1) =
      { nodes := [(Node.rxn r, rxnAttrs r 1)], edges := [] } := rfl
  have hA : SoloCore ((NXDiGraph.empty : NXDiGraph α).add_node (Node.rxn r)
      (rxnAttrs r 1)) r 1 := by
    rw [hbase]
    refine ⟨?_, ?_, ?_⟩
    · intro nd hnd
      rw [List.mem_singleton.mp hnd]
      exact Or.inr ⟨rfl, rfl⟩
    · simp [NXDiGraph.hasNode]
    · intro ed hed
      exact absurd hed (List.not_mem_nil ed)
  obtain ⟨hc1, hN1, hE1, hall1⟩ := fold_react_solo r r.reactives _ hA
  obtain ⟨hc2, hN2, hE2, hall2⟩ := fold_prod_solo r r.products _ hc1
  exact ⟨hc2.1, hc2.2.1,
    fun x hx => hN2 _ (hall1 x hx).1,
    fun p hp => (hall2 p hp).1,
    hc2.2.2,
    fun x hx => hE2 _ _ (hall1 x hx).2,
    fun p hp => (hall2 p hp).2⟩

theorem add_reaction_solo (g : NXDiGraph α) (r : Reaction α) (m : Int)
    (h : SoloInv g r m) : add_reaction g r = set_occurrences g r (m + 1) := by
  rw [add_reaction_eq_folds, get_occurrences_of_solo g r m h]
  have htoi : (Val.int m).toInt = m := rfl
  rw [htoi, add_node_rxn_on_solo g r m h (m + 1)]
  have hG : SoloInv (set_occurrences g r (m + 1)) r (m + 1) := SoloInv_setOcc g r m h (m + 1)
  have hreact : ∀ x ∈ r.reactives,
      reactStep r (set_occurrences g r (m + 1)) x = set_occurrences g r (m + 1) := by
    intro x hx
    unfold reactStep
    rw [add_node_expr_id _ r (m + 1) hG x (hG.2.2.1 x hx)]
    apply add_edge_id
    · exact hG.2.2.1 x hx
    · exact hG.2.1
    · exact hG.2.2.2.2.2.1 x hx
    · intro ed hed hk
      rcases hG.2.2.2.2.1 ed hed with ⟨x', hk', hd⟩ | ⟨p, hk', hd⟩
      · have hxx : Node.expr x = Node.expr x' :=
          congrArg Prod.fst (hk.symm.trans hk')
        have hx' : x = x' := Node.expr.inj hxx
        rw [hd, ← hx', updAttrs_sub]
      · have hxx : Node.expr x = Node.rxn r :=
          congrArg Prod.fst (hk.symm.trans hk')
        exact absurd hxx (by intro hc; exact Node.noConfusion hc)
  have hprod : ∀ p ∈ r.products,
      prodStep r (set_occurrences g r (m + 1)) p = set_occurrences g r (m + 1) := by
    intro p hp
    unfold prodStep
    rw [add_node_expr_id _ r (m + 1) hG p (hG.2.2.2.1 p hp)]
    apply add_edge_id
    · exact hG.2.1
    · exact hG.2.2.2.1 p hp
    · exact hG.2.2.2.2.2.2 p hp
    · intro ed hed hk
      rcases hG.2.2.2.2.1 ed hed with ⟨x', hk', hd⟩ | ⟨p', hk', hd⟩
      · have hxx : Node.rxn r = Node.expr x' :=
          congrArg Prod.fst (hk.symm.trans hk')
        exact absurd hxx (by intro hc; exact Node.noConfusion hc)
      · rw [hd, updAttrs_sub]
  rw [foldl_fixed (reactStep r) _ r.reactives hreact,
    foldl_fixed (prodStep r) _ r.products hprod]

/-- C4: inserting the same value-equal reaction k times into the empty
graph yields exactly the graph of a single insertion with the reaction
node's occurrences attribute set to k, and get_occurrences then reports
k. -/
theorem add_reaction_idempotent (r : Reaction α) (k : Nat) (hk : 1 ≤ k) :
    buildGraph (List.replicate k r) =
        set_occurrences (add_reaction NXDiGraph.empty r) r (k : Int) ∧
      get_occurrences (buildGraph (List.replicate k r)) r = Val.int (k : Int) := by
  induction k, hk using Nat.le_induction with
  | base =>
      have h1 : buildGraph (List.replicate 1 r) = add_reaction NXDiGraph.empty r := rfl
      have hcast : ((1 : Nat) : Int) = 1 := rfl
      constructor
      · rw [h1, hcast, setOcc_id_of_solo _ r 1 (SoloInv_first r)]
      · rw [h1, hcast]
        exact get_occurrences_of_solo _ r 1 (SoloInv_first r)
  | succ k hk ih =>
      have hrep : List.replicate (k + 1) r = List.replicate k r ++ [r] :=
        List.replicate_succ' k r
      have hb : buildGraph (List.replicate (k + 1) r) =
          add_reaction (buildGraph (List.replicate k r)) r := by
        unfold buildGraph
        rw [hrep, List.foldl_append]
        rfl
      have hsolo1 := SoloInv_first r
      have hsoloK : SoloInv (buildGraph (List.replicate k r)) r (k : Int) := by
        rw [ih.1]
        exact SoloInv_setOcc _ r 1 hsolo1 (k : Int)
      have hcast : ((k + 1 : Nat) : Int) = (k : Int) + 1 := by push_cast; ring
      constructor
      · rw [hb, add_reaction_solo _ r (k : Int) hsoloK, ih.1,
          setOcc_setOcc_of_solo _ r 1 hsolo1, hcast]
      · rw [hb, add_reaction_solo _ r (k : Int) hsoloK, hcast]
        exact get_occurrences_of_solo _ r ((k : Int) + 1)
          (SoloInv_setOcc _ r (k : Int) hsoloK ((k : Int) + 1))

def rC4 : Reaction Nat := ⟨"reduce", [1, 2, 1], [3, 1], 1⟩

/-- C4 witness: inserting the same reaction three times equals one
insertion with the occurrences counter set to 3, and get_occurrences
reports 3. -/
theorem add_reaction_idempotent_witness :
    buildGraph (List.replicate 3 rC4) =
        set_occurrences (add_reaction NXDiGraph.empty rC4) rC4 ((3 : Nat) : Int) ∧
      get_occurrences (buildGraph (List.replicate 3 rC4)) rC4 =
        Val.int ((3 : Nat) : Int) :=
  add_reaction_idempotent rC4 3 (by decide)

end CommAI
